import Mathlib

/-!
# Verification of the OntologyCrawler traversal core

Shallow embedding of the OntologyCrawler repository (`src/ontology_crawler.py`,
`src/bioportal_crawler.py`, `src/context_extract.py`, `src/EnvironmentHandler.py`)
and proofs about its property-path crawl, import resolution, format fallback,
seed validation and environment-handler factory.

RDF nodes are modelled as either IRIs or literals over an abstract string
universe (`Nat` payloads standing for identifier strings, compared by
equality, exactly as `rdflib` compares `URIRef`/`Literal` values by their
string payloads and as the crawler interpolates `str(node)` into queries).
Graphs are triple collections with set semantics: insertion is ignored when
the triple is already present, mirroring `rdflib.Graph.add`.
-/

namespace OntologyCrawler

/-- An RDF term: an IRI or a literal.  The payload stands for the
identifier/lexical string; two terms are equal iff they have the same
kind and the same string, as in `rdflib`. -/
inductive Node where
  | iri (s : Nat)
  | lit (s : Nat)
deriving DecidableEq, Repr

/-- The lexical payload, modelling Python `str(node)`: for a `URIRef` this is
the IRI string, for a `Literal` its lexical form. -/
def Node.strOf : Node → Nat
  | .iri s => s
  | .lit s => s

/-- Interpolating a node into a SPARQL query as `<%s> % str(node)` (and the
BioPortal code's `URIRef(binding value)`) always produces an IRI term with
the node's lexical payload. -/
def Node.anchor (e : Node) : Node := .iri e.strOf

/-- An RDF triple (subject, predicate, object). -/
structure Triple where
  s : Node
  p : Node
  o : Node
deriving DecidableEq, Repr

/-- A graph is a collection of triples; the embedding keeps them in a list
and preserves set semantics through `addT`. -/
abbrev Graph := List Triple

/-- `rdflib.Graph.add`: a set insertion — adding an already present triple
is a no-op. -/
def addT (t : Triple) (g : Graph) : Graph :=
  if t ∈ g then g else t :: g

/-- Python `set.add` on a set of nodes. -/
def addN (x : Node) (s : List Node) : List Node :=
  if x ∈ s then s else x :: s

/-- Graph union `a + b` (`rdflib` set union): all triples of `b` are added
to `a`, skipping duplicates. -/
def gUnion (a b : Graph) : Graph :=
  b.foldl (fun acc t => addT t acc) a

/-- The effect on membership of `addT`. -/
theorem mem_addT {t u : Triple} {g : Graph} : u ∈ addT t g ↔ u = t ∨ u ∈ g := by
  unfold addT
  split
  · next h => exact ⟨fun hu => Or.inr hu, fun hu => hu.elim (fun e => e ▸ h) id⟩
  · exact List.mem_cons

/-- The effect on membership of `addN`. -/
theorem mem_addN {x y : Node} {s : List Node} : y ∈ addN x s ↔ y = x ∨ y ∈ s := by
  unfold addN
  split
  · next h => exact ⟨fun hu => Or.inr hu, fun hu => hu.elim (fun e => e ▸ h) id⟩
  · exact List.mem_cons

/-- Membership in a graph union. -/
theorem mem_gUnion {t : Triple} {a b : Graph} : t ∈ gUnion a b ↔ t ∈ a ∨ t ∈ b := by
  induction b generalizing a with
  | nil => simp [gUnion]
  | cons u rest ih =>
      have h : gUnion a (u :: rest) = gUnion (addT u a) rest := rfl
      rw [h, ih, mem_addT, List.mem_cons]
      tauto

/-! ## The property-path crawler (`extract_property_paths`)

`src/ontology_crawler.py` lines 150–273.  The two recursive inner functions
`__find_downstream` and `__find_upstream` differ only in which triple
position is anchored in the query and which binding is followed; they are
embedded as one function over a direction tag. -/

/-- Traversal direction: `down` embeds `__find_downstream`
(`ontology_crawler.py:204-230`), `up` embeds `__find_upstream`
(`ontology_crawler.py:232-258`). -/
inductive Dir where
  | down
  | up
deriving DecidableEq, Repr

/-- The triple position the query anchors on: downstream queries
`<entity> ?prop ?downstream` (anchor = subject); upstream queries
`?upstream ?prop <entity>` (anchor = object). -/
def Dir.qsel : Dir → Triple → Node
  | .down, t => t.s
  | .up, t => t.o

/-- The binding that is followed into the recursion: the object for
downstream, the subject for upstream. -/
def Dir.qnext : Dir → Triple → Node
  | .down, t => t.o
  | .up, t => t.s

/-- `__property_filter_str` (`ontology_crawler.py:195-202`): the FILTER
clause `?prop = <str p1> || ?prop = <str p2> || ...` — the predicate of a
matching triple must equal one of the properties rendered as an IRI. -/
def predFilter (P : List Node) (q : Node) : Bool :=
  P.any fun p => q = p.anchor

/-- The SPARQL query issued by one expansion step: all triples of `graph`
anchored at `str(entity)` (as an IRI) in the direction's position whose
predicate passes the property filter. -/
def queryDir (d : Dir) (G : Graph) (P : List Node) (e : Node) : List Triple :=
  G.filter fun t => decide (d.qsel t = e.anchor) && predFilter P t.p

/-- The triple added to the output graph for one query row: downstream adds
`(entity, prop, downstream)` (`ontology_crawler.py:224`), upstream adds
`(upstream, prop, entity)` (`ontology_crawler.py:252`) — note the raw
`entity` node is used, not its query anchor. -/
def outT (d : Dir) (e : Node) (t : Triple) : Triple :=
  match d with
  | .down => ⟨e, t.p, t.o⟩
  | .up => ⟨t.s, t.p, e⟩

/-- Per-direction crawl state: the direction's `seen_*` set, the shared
output graph `gout`, and (for analysis) the trace of nodes on which the
recursive expansion function has been invoked, in call order. -/
structure DirSt where
  seen : List Node
  gout : Graph
  trace : List Node
deriving DecidableEq, Repr

/-- The body of the `for r in res:` loop of `__find_downstream` /
`__find_upstream`: each row's triple is added to `gout`; then, unless the
direction is shallow or the discovered node is already in the direction's
seen set, the node is added to the seen set and expanded recursively
(`expand` is the recursive call with the remaining fuel). -/
def goRows (d : Dir) (sh : Bool) (expand : Node → DirSt → DirSt) (e : Node) :
    List Triple → DirSt → DirSt
  | [], st => st
  | t :: rest, st =>
      let g' := addT (outT d e t) st.gout
      let y := d.qnext t
      if sh || decide (y ∈ st.seen) then
        goRows d sh expand e rest { st with gout := g' }
      else
        goRows d sh expand e rest (expand y { seen := addN y st.seen, gout := g', trace := st.trace })

/-- One invocation of `__find_downstream`/`__find_upstream` on `entity`:
query the graph at the entity and process the rows.  The fuel argument
makes the (terminating) Python recursion structurally well-founded; the
entered entity is recorded on the trace. -/
def findDir (G : Graph) (P : List Node) (d : Dir) (sh : Bool) :
    Nat → Node → DirSt → DirSt
  | 0, _, st => st
  | fuel + 1, e, st =>
      goRows d sh (fun y st' => findDir G P d sh fuel y st') e (queryDir d G P e)
        { st with trace := st.trace ++ [e] }

/-- The full crawl state of one `extract_property_paths` invocation: the two
per-direction seen sets (`seen_upstream`, `seen_downstream`), the single
shared output graph `gout`, and the two per-direction expansion traces. -/
structure CrawlSt where
  seenUp : List Node
  seenDown : List Node
  gout : Graph
  traceUp : List Node
  traceDown : List Node
deriving DecidableEq, Repr

/-- The empty initial state of a crawl invocation. -/
def initSt : CrawlSt := ⟨[], [], [], [], []⟩

/-- Project the crawl state onto one direction's substate. -/
def CrawlSt.dir (st : CrawlSt) : Dir → DirSt
  | .up => ⟨st.seenUp, st.gout, st.traceUp⟩
  | .down => ⟨st.seenDown, st.gout, st.traceDown⟩

/-- Write one direction's substate back into the crawl state. -/
def CrawlSt.setDir (st : CrawlSt) : Dir → DirSt → CrawlSt
  | .up, r => { st with seenUp := r.seen, gout := r.gout, traceUp := r.trace }
  | .down, r => { st with seenDown := r.seen, gout := r.gout, traceDown := r.trace }

/-- One direction's block of the seed loop (`ontology_crawler.py:263-268`):
when the direction is enabled, run the recursive finder on the seed and then
add the seed to that direction's seen set. -/
def seedPhase (G : Graph) (P : List Node) (d : Dir) (enabled sh : Bool)
    (fuel : Nat) (seed : Node) (st : CrawlSt) : CrawlSt :=
  if enabled then
    let r := findDir G P d sh fuel seed (st.dir d)
    st.setDir d { r with seen := addN seed r.seen }
  else st

/-- The seed loop of `extract_property_paths` (`ontology_crawler.py:262-268`).
The source runs the upstream block before the downstream block for each
seed; `upFirst = false` is the same loop with the two direction blocks
swapped, used to state order independence. -/
def crawlSeeds (G : Graph) (P : List Node) (upstream downstream upSh downSh : Bool)
    (upFirst : Bool) (fuel : Nat) : List Node → CrawlSt → CrawlSt
  | [], st => st
  | seed :: rest, st =>
      let st :=
        if upFirst then
          seedPhase G P .down downstream downSh fuel seed
            (seedPhase G P .up upstream upSh fuel seed st)
        else
          seedPhase G P .up upstream upSh fuel seed
            (seedPhase G P .down downstream downSh fuel seed st)
      crawlSeeds G P upstream downstream upSh downSh upFirst fuel rest st

/-- All node occurrences of a graph (subjects and objects); every node that
the crawl can newly mark as seen comes from this list. -/
def nodesOf (G : Graph) : List Node := G.map (·.s) ++ G.map (·.o)

/-- Fuel bound sufficient for any crawl over `G`: one more than the number
of distinct nodes of `G`. -/
def fuelBound (G : Graph) : Nat := (nodesOf G).dedup.length + 1

/-- The effective shallow flag: the `shallow` keyword, when not `None`,
overrides the per-direction flag (`ontology_crawler.py:178-180`). -/
def effSh (shallow : Option Bool) (b : Bool) : Bool :=
  match shallow with
  | some c => c
  | none => b

/-- `extract_property_paths` (`ontology_crawler.py:150-273`) with explicit
direction order and fuel, returning the whole final state. -/
def extractAux (seeds : List Node) (G : Graph) (P : List Node)
    (upstream downstream : Bool) (shallow : Option Bool) (upSh downSh : Bool)
    (upFirst : Bool) (fuel : Nat) : CrawlSt :=
  crawlSeeds G P upstream downstream (effSh shallow upSh) (effSh shallow downSh)
    upFirst fuel seeds initSt

/-- `extract_property_paths(seeds, graph, properties, upstream=, downstream=,
shallow=, up_shallow=, down_shallow=)`: the returned output graph `gout`. -/
def extract_property_paths (seeds : List Node) (G : Graph) (P : List Node)
    (upstream downstream : Bool) (shallow : Option Bool) (upSh downSh : Bool) :
    Graph :=
  (extractAux seeds G P upstream downstream shallow upSh downSh true (fuelBound G)).gout

/-! ## Monotonicity of the crawl state -/

/-- State evolution during a crawl: the seen set and output graph only grow,
and the trace is only appended to. -/
def DLe (st st' : DirSt) : Prop :=
  st.seen ⊆ st'.seen ∧ st.gout ⊆ st'.gout ∧ ∃ ext, st'.trace = st.trace ++ ext

theorem DLe_refl (st : DirSt) : DLe st st :=
  ⟨fun _ h => h, fun _ h => h, [], by simp⟩

theorem DLe_trans {a b c : DirSt} (h1 : DLe a b) (h2 : DLe b c) : DLe a c := by
  obtain ⟨s1, g1, e1, he1⟩ := h1
  obtain ⟨s2, g2, e2, he2⟩ := h2
  exact ⟨fun x hx => s2 (s1 hx), fun x hx => g2 (g1 hx), e1 ++ e2,
    by rw [he2, he1, List.append_assoc]⟩

theorem DLe_addT {st : DirSt} (t : Triple) :
    DLe st { st with gout := addT t st.gout } :=
  ⟨fun _ h => h, fun u hu => mem_addT.mpr (Or.inr hu), [], by simp⟩

/-- `goRows` only grows the state, provided the expansion function does. -/
theorem goRows_mono {d : Dir} {sh : Bool} {expand : Node → DirSt → DirSt} {e : Node}
    (hexp : ∀ y st, DLe st (expand y st)) :
    ∀ rows st, DLe st (goRows d sh expand e rows st) := by
  intro rows
  induction rows with
  | nil => intro st; exact DLe_refl st
  | cons t rest ih =>
      intro st
      show DLe st (goRows d sh expand e (t :: rest) st)
      rw [goRows]
      split
      · exact DLe_trans (DLe_addT _) (ih _)
      · refine DLe_trans ?_ (ih _)
        refine DLe_trans ?_ (hexp _ _)
        exact ⟨fun x hx => mem_addN.mpr (Or.inr hx), fun u hu => mem_addT.mpr (Or.inr hu), [], by simp⟩

/-- One recursive finder invocation only grows the state. -/
theorem findDir_mono (G : Graph) (P : List Node) (d : Dir) (sh : Bool) :
    ∀ fuel e st, DLe st (findDir G P d sh fuel e st) := by
  intro fuel
  induction fuel with
  | zero => intro e st; exact DLe_refl st
  | succ fuel ih =>
      intro e st
      rw [findDir]
      refine DLe_trans (⟨fun _ h => h, fun _ h => h, [e], rfl⟩ :
        DLe st { st with trace := st.trace ++ [e] }) ?_
      exact goRows_mono (fun y st' => ih y st') _ _

/-! ## Termination: the recursion stabilizes once the fuel exceeds the node
count of the graph -/

theorem length_filter_le_of_imp {α : Type} (l : List α) (p q : α → Bool)
    (hpq : ∀ x, q x = true → p x = true) :
    (l.filter q).length ≤ (l.filter p).length := by
  induction l with
  | nil => simp
  | cons a l ih =>
      by_cases hq : q a = true
      · have hp := hpq a hq
        simp [List.filter_cons, hq, hp, Nat.succ_le_succ ih]
      · have hq' : q a = false := by revert hq; cases q a <;> simp
        by_cases hp : p a = true
        · simp [List.filter_cons, hq', hp]
          exact Nat.le_succ_of_le ih
        · have hp' : p a = false := by revert hp; cases p a <;> simp
          simp [List.filter_cons, hq', hp', ih]

theorem length_filter_lt_of_imp {α : Type} (l : List α) (p q : α → Bool)
    (hpq : ∀ x, q x = true → p x = true) (y : α) (hy : y ∈ l)
    (hp : p y = true) (hq : q y = false) :
    (l.filter q).length < (l.filter p).length := by
  induction l with
  | nil => cases hy
  | cons a l ih =>
      rcases List.mem_cons.mp hy with rfl | hy'
      · simp [List.filter_cons, hp, hq, Nat.lt_succ_of_le (length_filter_le_of_imp l p q hpq)]
      · by_cases hqa : q a = true
        · have hpa := hpq a hqa
          simp [List.filter_cons, hqa, hpa, Nat.succ_lt_succ (ih hy')]
        · have hqa' : q a = false := by revert hqa; cases q a <;> simp
          by_cases hpa : p a = true
          · simp [List.filter_cons, hqa', hpa]
            exact Nat.lt_succ_of_lt (ih hy')
          · have hpa' : p a = false := by revert hpa; cases p a <;> simp
            simp [List.filter_cons, hqa', hpa', ih hy']

/-- Number of distinct nodes of `G` not yet in a seen set — the quantity the
Python recursion strictly decreases at every nested expansion. -/
def unseenCount (G : Graph) (seen : List Node) : Nat :=
  ((nodesOf G).dedup.filter (fun x => decide (x ∉ seen))).length

theorem unseenCount_le (G : Graph) (seen : List Node) :
    unseenCount G seen ≤ (nodesOf G).dedup.length :=
  List.length_filter_le _ _

theorem unseenCount_anti (G : Graph) {s s' : List Node} (h : s ⊆ s') :
    unseenCount G s' ≤ unseenCount G s := by
  refine length_filter_le_of_imp _ _ _ ?_
  intro x hx
  simp only [decide_eq_true_eq] at *
  exact fun hmem => hx (h hmem)

theorem unseenCount_lt (G : Graph) {seen : List Node} {y : Node}
    (hyG : y ∈ nodesOf G) (hy : y ∉ seen) :
    unseenCount G (addN y seen) < unseenCount G seen := by
  refine length_filter_lt_of_imp _ _ _ ?_ y (List.mem_dedup.mpr hyG) ?_ ?_
  · intro x hx
    simp only [decide_eq_true_eq] at *
    exact fun hmem => hx (mem_addN.mpr (Or.inr hmem))
  · simpa using hy
  · simp [mem_addN]

/-- If the fuel strictly exceeds the number of unseen nodes, one more unit
of fuel makes no difference to the finder. -/
theorem findDir_stable_succ (G : Graph) (P : List Node) (d : Dir) (sh : Bool) :
    ∀ fuel e st, unseenCount G st.seen < fuel →
      findDir G P d sh (fuel + 1) e st = findDir G P d sh fuel e st := by
  intro fuel
  induction fuel with
  | zero => intro e st h; cases Nat.not_lt_zero _ h
  | succ fuel ih =>
      intro e st h
      rw [findDir, findDir]
      have hrows : ∀ t ∈ queryDir d G P e, d.qnext t ∈ nodesOf G := by
        intro t ht
        have htG : t ∈ G := List.mem_of_mem_filter ht
        cases d with
        | down => exact List.mem_append.mpr (Or.inr (List.mem_map.mpr ⟨t, htG, rfl⟩))
        | up => exact List.mem_append.mpr (Or.inl (List.mem_map.mpr ⟨t, htG, rfl⟩))
      have hstep : ∀ rows st', (∀ t ∈ rows, d.qnext t ∈ nodesOf G) →
          unseenCount G st'.seen < fuel + 1 →
          goRows d sh (fun y st'' => findDir G P d sh (fuel + 1) y st'') e rows st'
            = goRows d sh (fun y st'' => findDir G P d sh fuel y st'') e rows st' := by
        intro rows
        induction rows with
        | nil => intro st' _ _; rfl
        | cons t rest ihr =>
            intro st' hr hcnt
            rw [goRows, goRows]
            split
            · exact ihr _ (fun u hu => hr u (List.mem_cons_of_mem t hu)) hcnt
            · next hcond =>
                have hy : d.qnext t ∉ st'.seen := by
                  intro hmem
                  exact hcond (by simp [hmem])
                have hyG : d.qnext t ∈ nodesOf G := hr t (List.mem_cons_self t rest)
                set st1 : DirSt :=
                  { seen := addN (d.qnext t) st'.seen,
                    gout := addT (outT d e t) st'.gout, trace := st'.trace } with hst1
                have hcnt1 : unseenCount G st1.seen < fuel := by
                  have h1 : unseenCount G st1.seen < unseenCount G st'.seen :=
                    unseenCount_lt G hyG hy
                  omega
                rw [ih (d.qnext t) st1 hcnt1]
                refine ihr _ (fun u hu => hr u (List.mem_cons_of_mem t hu)) ?_
                have hmono := (findDir_mono G P d sh fuel (d.qnext t) st1).1
                have h2 : unseenCount G (findDir G P d sh fuel (d.qnext t) st1).seen ≤
                    unseenCount G st1.seen := unseenCount_anti G hmono
                omega
      exact hstep (queryDir d G P e) { st with trace := st.trace ++ [e] } hrows h

/-- Full fuel-stability: any two fuels above the unseen count give the same
finder result. -/
theorem findDir_stable (G : Graph) (P : List Node) (d : Dir) (sh : Bool)
    {f₁ f₂ : Nat} (e : Node) (st : DirSt)
    (h₁ : unseenCount G st.seen < f₁) (h₁₂ : f₁ ≤ f₂) :
    findDir G P d sh f₂ e st = findDir G P d sh f₁ e st := by
  induction f₂, h₁₂ using Nat.le_induction with
  | base => rfl
  | succ f₂ hle ih =>
      rw [findDir_stable_succ G P d sh f₂ e st (Nat.lt_of_lt_of_le h₁ hle), ih]

/-- One seed phase is fuel-stable above the graph's node bound. -/
theorem seedPhase_stable (G : Graph) (P : List Node) (d : Dir)
    (enabled sh : Bool) {fuel : Nat} (hf : fuelBound G ≤ fuel)
    (seed : Node) (st : CrawlSt) :
    seedPhase G P d enabled sh fuel seed st
      = seedPhase G P d enabled sh (fuelBound G) seed st := by
  unfold seedPhase
  split
  · have hcnt : unseenCount G (st.dir d).seen < fuelBound G :=
      Nat.lt_succ_of_le (unseenCount_le G _)
    rw [findDir_stable G P d sh seed (st.dir d) hcnt hf]
  · rfl

/-- The whole seed loop is fuel-stable above the graph's node bound. -/
theorem crawlSeeds_stable (G : Graph) (P : List Node)
    (upstream downstream upSh downSh upFirst : Bool) {fuel : Nat}
    (hf : fuelBound G ≤ fuel) :
    ∀ seeds st, crawlSeeds G P upstream downstream upSh downSh upFirst fuel seeds st
      = crawlSeeds G P upstream downstream upSh downSh upFirst (fuelBound G) seeds st := by
  intro seeds
  induction seeds with
  | nil => intro st; rfl
  | cons s rest ih =>
      intro st
      rw [crawlSeeds, crawlSeeds]
      simp only [seedPhase_stable G P _ _ _ hf]
      split <;> rw [ih]

/-! ## Characterizing the crawler's output graph -/

theorem mem_queryDir {d : Dir} {G : Graph} {P : List Node} {e : Node} {t : Triple} :
    t ∈ queryDir d G P e ↔ t ∈ G ∧ d.qsel t = e.anchor ∧ predFilter P t.p = true := by
  unfold queryDir
  rw [List.mem_filter]
  simp [and_assoc]

/-- One traversal step of the crawler, as a relation on raw nodes: the graph
holds a property-filtered triple anchored (through `str`) at `a` whose
followed binding is `b`. -/
def stepR (d : Dir) (G : Graph) (P : List Node) (a b : Node) : Prop :=
  ∃ t ∈ G, d.qsel t = a.anchor ∧ predFilter P t.p = true ∧ d.qnext t = b

/-- Nodes reachable from the seed set by crawler steps (any number,
including zero). -/
def reachDir (d : Dir) (G : Graph) (P : List Node) (seeds : List Node) (a : Node) : Prop :=
  ∃ s ∈ seeds, Relation.ReflTransGen (stepR d G P) s a

/-- The set of triples a direction contributes to the output graph: every
query row of every expanded node, where the expanded nodes are the seeds
themselves when the direction is shallow and the full step-closure of the
seeds otherwise. -/
def charDir (d : Dir) (G : Graph) (P : List Node) (sh : Bool) (seeds : List Node)
    (u : Triple) : Prop :=
  ∃ a, (match sh with
         | true => a ∈ seeds
         | false => reachDir d G P seeds a) ∧
    ∃ t ∈ queryDir d G P a, u = outT d a t

/-- A node is fully processed in a state: all its query rows have been
added to the output graph and all its discovered neighbours are seen. -/
def processed (d : Dir) (G : Graph) (P : List Node) (st : DirSt) (a : Node) : Prop :=
  ∀ t ∈ queryDir d G P a, outT d a t ∈ st.gout ∧ d.qnext t ∈ st.seen

theorem processed_mono {d : Dir} {G : Graph} {P : List Node} {st st' : DirSt} {a : Node}
    (hseen : st.seen ⊆ st'.seen) (hgout : st.gout ⊆ st'.gout)
    (h : processed d G P st a) : processed d G P st' a :=
  fun t ht => ⟨hgout (h t ht).1, hseen (h t ht).2⟩

theorem stepR_of_row {d : Dir} {G : Graph} {P : List Node} {e : Node} {t : Triple}
    (ht : t ∈ queryDir d G P e) : stepR d G P e (d.qnext t) := by
  obtain ⟨htG, hsel, hfil⟩ := mem_queryDir.mp ht
  exact ⟨t, htG, hsel, hfil, rfl⟩

/-- Soundness of the finder: every triple the run adds to the output graph
is a query row of a node satisfying any step-closed predicate holding at
the entry node. -/
theorem findDir_sound (G : Graph) (P : List Node) (d : Dir) (sh : Bool)
    (R : Node → Prop) (hstep : ∀ a b, R a → stepR d G P a b → R b) :
    ∀ fuel e st, R e →
      ∀ u ∈ (findDir G P d sh fuel e st).gout, u ∈ st.gout ∨
        ∃ a t, R a ∧ t ∈ queryDir d G P a ∧ u = outT d a t := by
  intro fuel
  induction fuel with
  | zero => intro e st _ u hu; exact Or.inl hu
  | succ fuel ih =>
      intro e st hRe
      rw [findDir]
      have hgo : ∀ rows st', rows ⊆ queryDir d G P e →
          ∀ u ∈ (goRows d sh (fun y st'' => findDir G P d sh fuel y st'') e rows st').gout,
            u ∈ st'.gout ∨ ∃ a t, R a ∧ t ∈ queryDir d G P a ∧ u = outT d a t := by
        intro rows
        induction rows with
        | nil => intro st' _ u hu; exact Or.inl hu
        | cons t rest ihr =>
            intro st' hsub u hu
            rw [goRows] at hu
            have htq : t ∈ queryDir d G P e := hsub (List.mem_cons_self t rest)
            have hrest : rest ⊆ queryDir d G P e :=
              fun v hv => hsub (List.mem_cons_of_mem t hv)
            split at hu
            · rcases ihr _ hrest u hu with h | h
              · rcases mem_addT.mp h with rfl | h'
                · exact Or.inr ⟨e, t, hRe, htq, rfl⟩
                · exact Or.inl h'
              · exact Or.inr h
            · rcases ihr _ hrest u hu with h | h
              · rcases ih (d.qnext t)
                  { seen := addN (d.qnext t) st'.seen,
                    gout := addT (outT d e t) st'.gout, trace := st'.trace }
                  (hstep e (d.qnext t) hRe (stepR_of_row htq)) u h with h2 | h2
                · rcases mem_addT.mp h2 with rfl | h'
                  · exact Or.inr ⟨e, t, hRe, htq, rfl⟩
                  · exact Or.inl h'
                · exact Or.inr h2
              · exact Or.inr h
      exact hgo (queryDir d G P e) { st with trace := st.trace ++ [e] } (fun v hv => hv)

/-- Completeness of the deep finder: with sufficient fuel the entry node is
fully processed, and every node the run adds to the seen set is fully
processed in the final state. -/
theorem findDir_complete (G : Graph) (P : List Node) (d : Dir) :
    ∀ fuel e st, unseenCount G st.seen < fuel →
      processed d G P (findDir G P d false fuel e st) e ∧
      ∀ x ∈ (findDir G P d false fuel e st).seen,
        x ∈ st.seen ∨ processed d G P (findDir G P d false fuel e st) x := by
  intro fuel
  induction fuel with
  | zero => intro e st h; cases Nat.not_lt_zero _ h
  | succ fuel ih =>
      intro e st hcnt
      rw [findDir]
      have hgo : ∀ rows st', rows ⊆ queryDir d G P e →
          unseenCount G st'.seen < fuel + 1 →
          (∀ t ∈ rows,
            outT d e t ∈ (goRows d false (fun y st'' => findDir G P d false fuel y st'') e rows st').gout ∧
            d.qnext t ∈ (goRows d false (fun y st'' => findDir G P d false fuel y st'') e rows st').seen) ∧
          ∀ x ∈ (goRows d false (fun y st'' => findDir G P d false fuel y st'') e rows st').seen,
            x ∈ st'.seen ∨
              processed d G P (goRows d false (fun y st'' => findDir G P d false fuel y st'') e rows st') x := by
        intro rows
        induction rows with
        | nil =>
            intro st' _ _
            exact ⟨fun t ht => absurd ht (List.not_mem_nil t), fun x hx => Or.inl hx⟩
        | cons t rest ihr =>
            intro st' hsub hcnt'
            have htq : t ∈ queryDir d G P e := hsub (List.mem_cons_self t rest)
            have hrest : rest ⊆ queryDir d G P e :=
              fun v hv => hsub (List.mem_cons_of_mem t hv)
            rw [goRows]
            split
            · next hcond =>
                have hyseen : d.qnext t ∈ st'.seen := by
                  simpa using hcond
                set st1 : DirSt := { st' with gout := addT (outT d e t) st'.gout } with hst1
                have hcnt1 : unseenCount G st1.seen < fuel + 1 := hcnt'
                obtain ⟨hrows, hnew⟩ := ihr st1 hrest hcnt1
                have hmono := @goRows_mono d false
                  (fun y st'' => findDir G P d false fuel y st'') e
                  (fun y st'' => findDir_mono G P d false fuel y st'') rest st1
                refine ⟨?_, ?_⟩
                · intro v hv
                  rcases List.mem_cons.mp hv with rfl | hv'
                  · exact ⟨hmono.2.1 (mem_addT.mpr (Or.inl rfl)), hmono.1 hyseen⟩
                  · exact hrows v hv'
                · intro x hx
                  rcases hnew x hx with h | h
                  · exact Or.inl h
                  · exact Or.inr h
            · next hcond =>
                have hy : d.qnext t ∉ st'.seen := by
                  intro hmem
                  exact hcond (by simp [hmem])
                have hyG : d.qnext t ∈ nodesOf G := by
                  have htG : t ∈ G := (mem_queryDir.mp htq).1
                  cases d with
                  | down => exact List.mem_append.mpr (Or.inr (List.mem_map.mpr ⟨t, htG, rfl⟩))
                  | up => exact List.mem_append.mpr (Or.inl (List.mem_map.mpr ⟨t, htG, rfl⟩))
                set st1 : DirSt :=
                  { seen := addN (d.qnext t) st'.seen,
                    gout := addT (outT d e t) st'.gout, trace := st'.trace } with hst1
                have hcnt1 : unseenCount G st1.seen < fuel := by
                  have h1 : unseenCount G st1.seen < unseenCount G st'.seen :=
                    unseenCount_lt G hyG hy
                  omega
                obtain ⟨hproc2, hnew2⟩ := ih (d.qnext t) st1 hcnt1
                set st2 : DirSt := findDir G P d false fuel (d.qnext t) st1 with hst2
                have hmono2 : DLe st1 st2 := findDir_mono G P d false fuel (d.qnext t) st1
                have hcnt2 : unseenCount G st2.seen < fuel + 1 := by
                  have := unseenCount_anti G hmono2.1
                  omega
                obtain ⟨hrows3, hnew3⟩ := ihr st2 hrest hcnt2
                have hmono3 := @goRows_mono d false
                  (fun y st'' => findDir G P d false fuel y st'') e
                  (fun y st'' => findDir_mono G P d false fuel y st'') rest st2
                refine ⟨?_, ?_⟩
                · intro v hv
                  rcases List.mem_cons.mp hv with rfl | hv'
                  · refine ⟨hmono3.2.1 (hmono2.2.1 (mem_addT.mpr (Or.inl rfl))), ?_⟩
                    exact hmono3.1 (hmono2.1 (mem_addN.mpr (Or.inl rfl)))
                  · exact hrows3 v hv'
                · intro x hx
                  rcases hnew3 x hx with h | h
                  · rcases hnew2 x h with h2 | h2
                    · rcases mem_addN.mp h2 with rfl | h3
                      · exact Or.inr (processed_mono hmono3.1 hmono3.2.1 hproc2)
                      · exact Or.inl h3
                    · exact Or.inr (processed_mono hmono3.1 hmono3.2.1 h2)
                  · exact Or.inr h
      obtain ⟨hrows, hnew⟩ := hgo (queryDir d G P e) { st with trace := st.trace ++ [e] }
        (fun v hv => hv) hcnt
      exact ⟨fun t ht => hrows t ht, hnew⟩

/-- The shallow finder adds exactly the entry node's query rows to the
output graph and leaves the seen set unchanged. -/
theorem findDir_shallow (G : Graph) (P : List Node) (d : Dir) :
    ∀ fuel e st, 1 ≤ fuel →
      (findDir G P d true fuel e st).seen = st.seen ∧
      ∀ u, u ∈ (findDir G P d true fuel e st).gout ↔
        u ∈ st.gout ∨ ∃ t ∈ queryDir d G P e, u = outT d e t := by
  intro fuel e st hfuel
  cases fuel with
  | zero => exact (Nat.not_succ_le_zero 0 hfuel).elim
  | succ fuel =>
  rw [findDir]
  have hgo : ∀ rows st',
      (goRows d true (fun y st'' => findDir G P d true fuel y st'') e rows st').seen = st'.seen ∧
      ∀ u, u ∈ (goRows d true (fun y st'' => findDir G P d true fuel y st'') e rows st').gout ↔
        u ∈ st'.gout ∨ ∃ t ∈ rows, u = outT d e t := by
    intro rows
    induction rows with
    | nil => intro st'; exact ⟨rfl, fun u => by simp [goRows]⟩
    | cons t rest ihr =>
        intro st'
        rw [goRows]
        have hcond : (true || decide (d.qnext t ∈ st'.seen)) = true := by simp
        simp only [hcond, if_true]
        obtain ⟨hseen, hgout⟩ := ihr { st' with gout := addT (outT d e t) st'.gout }
        refine ⟨hseen, fun u => ?_⟩
        rw [hgout u]
        simp only [mem_addT, List.mem_cons]
        constructor
        · rintro ((rfl | h) | ⟨v, hv, rfl⟩)
          · exact Or.inr ⟨t, Or.inl rfl, rfl⟩
          · exact Or.inl h
          · exact Or.inr ⟨v, Or.inr hv, rfl⟩
        · rintro (h | ⟨v, rfl | hv, rfl⟩)
          · exact Or.inl (Or.inr h)
          · exact Or.inl (Or.inl rfl)
          · exact Or.inr ⟨v, hv, rfl⟩
  obtain ⟨hseen, hgout⟩ := hgo (queryDir d G P e) { st with trace := st.trace ++ [e] }
  exact ⟨hseen, hgout⟩

/-! ## The crawl-loop invariant and the output characterization -/

theorem CrawlSt.dir_setDir (st : CrawlSt) (d : Dir) (r : DirSt) :
    (st.setDir d r).dir d = r := by
  cases d <;> rfl

theorem CrawlSt.dir_setDir_ne (st : CrawlSt) {d d2 : Dir} (h : d ≠ d2) (r : DirSt) :
    (st.setDir d r).dir d2 = ⟨(st.dir d2).seen, r.gout, (st.dir d2).trace⟩ := by
  cases d <;> cases d2 <;> first | rfl | exact absurd rfl h

theorem CrawlSt.gout_setDir (st : CrawlSt) (d : Dir) (r : DirSt) :
    (st.setDir d r).gout = r.gout := by
  cases d <;> rfl

theorem CrawlSt.gout_dir (st : CrawlSt) (d : Dir) : (st.dir d).gout = st.gout := by
  cases d <;> rfl

/-- The enabled flag governing a direction (`upstream` / `downstream`). -/
def dirEnabled (upstream downstream : Bool) : Dir → Bool
  | .up => upstream
  | .down => downstream

/-- The shallow flag governing a direction (`up_shallow` / `down_shallow`). -/
def dirShallow (upSh downSh : Bool) : Dir → Bool
  | .up => upSh
  | .down => downSh

/-- All query rows of `a` are in the output graph. -/
def outsSub (d : Dir) (G : Graph) (P : List Node) (gout : Graph) (a : Node) : Prop :=
  ∀ t ∈ queryDir d G P a, outT d a t ∈ gout

/-- Per-direction completeness invariant of the seed loop over the list of
seeds already handled for that direction. -/
def dirInv (d : Dir) (G : Graph) (P : List Node) (sh : Bool) (done : List Node)
    (st : DirSt) : Prop :=
  match sh with
  | true => ∀ a ∈ done, outsSub d G P st.gout a
  | false => (∀ a ∈ done, processed d G P st a) ∧ ∀ x ∈ st.seen, processed d G P st x

/-- Soundness invariant: every accumulated triple belongs to the enabled
directions' characterized contributions. -/
def soundInv (G : Graph) (P : List Node) (upstream downstream upSh downSh : Bool)
    (seeds : List Node) (gout : Graph) : Prop :=
  ∀ u ∈ gout, (upstream = true ∧ charDir .up G P upSh seeds u) ∨
    (downstream = true ∧ charDir .down G P downSh seeds u)

/-- Combined invariant of the seed loop. -/
def loopInv (G : Graph) (P : List Node) (upstream downstream upSh downSh : Bool)
    (seeds dU dD : List Node) (st : CrawlSt) : Prop :=
  soundInv G P upstream downstream upSh downSh seeds st.gout ∧
  (upstream = true → dirInv .up G P upSh dU (st.dir .up)) ∧
  (downstream = true → dirInv .down G P downSh dD (st.dir .down))

theorem dirInv_mono {d : Dir} {G : Graph} {P : List Node} {sh : Bool} {done : List Node}
    {st st' : DirSt} (hseen : st.seen ⊆ st'.seen) (hgout : st.gout ⊆ st'.gout)
    (hseen' : st'.seen ⊆ st.seen) (h : dirInv d G P sh done st) :
    dirInv d G P sh done st' := by
  cases sh with
  | true => exact fun a ha t ht => hgout (h a ha t ht)
  | false =>
      refine ⟨fun a ha => processed_mono hseen hgout (h.1 a ha), fun x hx => ?_⟩
      exact processed_mono hseen hgout (h.2 x (hseen' hx))

/-- The triples `findDir` adds to the output graph all belong to the
direction's characterized contribution. -/
theorem findDir_gout_char (d : Dir) (G : Graph) (P : List Node) (sh : Bool)
    (seeds : List Node) {fuel : Nat} (hf1 : 1 ≤ fuel) (s : Node) (hs : s ∈ seeds)
    (st0 : DirSt) :
    ∀ u ∈ (findDir G P d sh fuel s st0).gout,
      u ∈ st0.gout ∨ charDir d G P sh seeds u := by
  cases sh with
  | true =>
      intro u hu
      rcases ((findDir_shallow G P d fuel s st0 hf1).2 u).mp hu with hold | hq
      · exact Or.inl hold
      · obtain ⟨t, ht, rfl⟩ := hq
        exact Or.inr ⟨s, hs, t, ht, rfl⟩
  | false =>
      intro u hu
      rcases findDir_sound G P d false (reachDir d G P seeds)
          (fun a b ha hab => by
            obtain ⟨s0, hs0, hpath⟩ := ha
            exact ⟨s0, hs0, hpath.tail hab⟩)
          fuel s st0 ⟨s, hs, Relation.ReflTransGen.refl⟩ u hu with hold | hq
      · exact Or.inl hold
      · obtain ⟨a, t, ha, ht, rfl⟩ := hq
        exact Or.inr ⟨a, ha, t, ht, rfl⟩

/-- Effect of one deep seed expansion (followed by the seed being marked
seen) on the direction's completeness invariant. -/
theorem dirInv_deep_step (d : Dir) (G : Graph) (P : List Node) {fuel : Nat}
    (done : List Node) (s : Node) (st0 : DirSt)
    (hcnt : unseenCount G st0.seen < fuel)
    (h : dirInv d G P false done st0) :
    dirInv d G P false (done ++ [s])
      { findDir G P d false fuel s st0 with
        seen := addN s (findDir G P d false fuel s st0).seen } := by
  set r := findDir G P d false fuel s st0 with hr
  have hmono : DLe st0 r := findDir_mono G P d false fuel s st0
  obtain ⟨hprocS, hnewSeen⟩ := findDir_complete G P d fuel s st0 hcnt
  have haddle : r.seen ⊆ addN s r.seen := fun x hx => mem_addN.mpr (Or.inr hx)
  refine ⟨?_, ?_⟩
  · intro a ha
    rcases List.mem_append.mp ha with hd | hsngl
    · exact processed_mono haddle (fun x hx => hx)
        (processed_mono hmono.1 hmono.2.1 (h.1 a hd))
    · have : a = s := by simpa using hsngl
      subst this
      exact processed_mono haddle (fun x hx => hx) hprocS
  · intro x hx
    rcases mem_addN.mp hx with rfl | hx'
    · exact processed_mono haddle (fun v hv => hv) hprocS
    · rcases hnewSeen x hx' with hold | hproc
      · exact processed_mono haddle (fun v hv => hv)
          (processed_mono hmono.1 hmono.2.1 (h.2 x hold))
      · exact processed_mono haddle (fun v hv => hv) hproc

/-- Effect of one shallow seed expansion on the direction's completeness
invariant. -/
theorem dirInv_shallow_step (d : Dir) (G : Graph) (P : List Node) {fuel : Nat}
    (hf1 : 1 ≤ fuel) (done : List Node) (s : Node) (st0 : DirSt)
    (h : dirInv d G P true done st0) :
    dirInv d G P true (done ++ [s])
      { findDir G P d true fuel s st0 with
        seen := addN s (findDir G P d true fuel s st0).seen } := by
  obtain ⟨hseenEq, hgoutIff⟩ := findDir_shallow G P d fuel s st0 hf1
  intro a ha
  rcases List.mem_append.mp ha with hd | hsngl
  · exact fun t ht => (hgoutIff (outT d a t)).mpr (Or.inl (h a hd t ht))
  · have : a = s := by simpa using hsngl
    subst this
    exact fun t ht => (hgoutIff (outT d a t)).mpr (Or.inr ⟨t, ht, rfl⟩)

/-- The upstream phase of the seed loop preserves the loop invariant,
extending the upstream handled-seed list. -/
theorem seedPhaseUp_inv (G : Graph) (P : List Node)
    (upstream downstream upSh downSh : Bool) (seeds : List Node) {fuel : Nat}
    (hf : fuelBound G ≤ fuel) (s : Node) (hs : s ∈ seeds) (dU dD : List Node)
    (st : CrawlSt) (h : loopInv G P upstream downstream upSh downSh seeds dU dD st) :
    loopInv G P upstream downstream upSh downSh seeds (dU ++ [s]) dD
      (seedPhase G P .up upstream upSh fuel s st) := by
  obtain ⟨hSound, hUp, hDown⟩ := h
  have hf1 : 1 ≤ fuel := Nat.le_trans (Nat.succ_le_succ (Nat.zero_le _)) hf
  have hcnt : unseenCount G (st.dir .up).seen < fuel :=
    Nat.lt_of_lt_of_le (Nat.lt_succ_of_le (unseenCount_le G _)) hf
  unfold seedPhase
  cases upstream with
  | false =>
      rw [if_neg (by simp)]
      exact ⟨hSound, fun hup => absurd hup (by simp), hDown⟩
  | true =>
      rw [if_pos rfl]
      set r := findDir G P .up upSh fuel s (st.dir .up) with hr
      have hmono : DLe (st.dir .up) r := findDir_mono G P .up upSh fuel s (st.dir .up)
      have hgoutGrow : st.gout ⊆ r.gout := hmono.2.1
      have hdirUp : (st.setDir .up { r with seen := addN s r.seen }).dir .up
          = { r with seen := addN s r.seen } := rfl
      have hdirDown : (st.setDir .up { r with seen := addN s r.seen }).dir .down
          = ⟨(st.dir .down).seen, r.gout, (st.dir .down).trace⟩ := rfl
      have hgout : (st.setDir .up { r with seen := addN s r.seen }).gout = r.gout := rfl
      refine ⟨?_, ?_, ?_⟩
      · intro u hu
        rw [hgout] at hu
        rcases findDir_gout_char .up G P upSh seeds hf1 s hs (st.dir .up) u (hr ▸ hu)
            with hold | hchar
        · exact hSound u hold
        · exact Or.inl ⟨rfl, hchar⟩
      · intro hup
        rw [hdirUp]
        cases upSh with
        | true => exact dirInv_shallow_step .up G P hf1 dU s (st.dir .up) (hUp hup)
        | false => exact dirInv_deep_step .up G P dU s (st.dir .up) hcnt (hUp hup)
      · intro hdown
        rw [hdirDown]
        refine @dirInv_mono .down G P downSh dD (st.dir .down) _
          (fun x hx => hx) ?_ (fun x hx => hx) (hDown hdown)
        exact hgoutGrow

/-- The downstream phase of the seed loop preserves the loop invariant,
extending the downstream handled-seed list. -/
theorem seedPhaseDown_inv (G : Graph) (P : List Node)
    (upstream downstream upSh downSh : Bool) (seeds : List Node) {fuel : Nat}
    (hf : fuelBound G ≤ fuel) (s : Node) (hs : s ∈ seeds) (dU dD : List Node)
    (st : CrawlSt) (h : loopInv G P upstream downstream upSh downSh seeds dU dD st) :
    loopInv G P upstream downstream upSh downSh seeds dU (dD ++ [s])
      (seedPhase G P .down downstream downSh fuel s st) := by
  obtain ⟨hSound, hUp, hDown⟩ := h
  have hf1 : 1 ≤ fuel := Nat.le_trans (Nat.succ_le_succ (Nat.zero_le _)) hf
  have hcnt : unseenCount G (st.dir .down).seen < fuel :=
    Nat.lt_of_lt_of_le (Nat.lt_succ_of_le (unseenCount_le G _)) hf
  unfold seedPhase
  cases downstream with
  | false =>
      rw [if_neg (by simp)]
      exact ⟨hSound, hUp, fun hdown => absurd hdown (by simp)⟩
  | true =>
      rw [if_pos rfl]
      set r := findDir G P .down downSh fuel s (st.dir .down) with hr
      have hmono : DLe (st.dir .down) r := findDir_mono G P .down downSh fuel s (st.dir .down)
      have hgoutGrow : st.gout ⊆ r.gout := hmono.2.1
      have hdirDown : (st.setDir .down { r with seen := addN s r.seen }).dir .down
          = { r with seen := addN s r.seen } := rfl
      have hdirUp : (st.setDir .down { r with seen := addN s r.seen }).dir .up
          = ⟨(st.dir .up).seen, r.gout, (st.dir .up).trace⟩ := rfl
      have hgout : (st.setDir .down { r with seen := addN s r.seen }).gout = r.gout := rfl
      refine ⟨?_, ?_, ?_⟩
      · intro u hu
        rw [hgout] at hu
        rcases findDir_gout_char .down G P downSh seeds hf1 s hs (st.dir .down) u (hr ▸ hu)
            with hold | hchar
        · exact hSound u hold
        · exact Or.inr ⟨rfl, hchar⟩
      · intro hup
        rw [hdirUp]
        refine @dirInv_mono .up G P upSh dU (st.dir .up) _
          (fun x hx => hx) ?_ (fun x hx => hx) (hUp hup)
        exact hgoutGrow
      · intro hdown
        rw [hdirDown]
        cases downSh with
        | true => exact dirInv_shallow_step .down G P hf1 dD s (st.dir .down) (hDown hdown)
        | false => exact dirInv_deep_step .down G P dD s (st.dir .down) hcnt (hDown hdown)

/-- The loop invariant is established by the initial empty state. -/
theorem dirInv_init (d : Dir) (G : Graph) (P : List Node) (sh : Bool) :
    dirInv d G P sh [] ⟨[], [], []⟩ := by
  cases sh with
  | true => intro a ha; exact absurd ha (List.not_mem_nil a)
  | false =>
      exact ⟨fun a ha => absurd ha (List.not_mem_nil a),
        fun x hx => absurd hx (List.not_mem_nil x)⟩

/-- The whole seed loop preserves the invariant, extending both directions'
handled-seed lists by all the seeds processed. -/
theorem crawlSeeds_inv (G : Graph) (P : List Node)
    (upstream downstream upSh downSh upFirst : Bool) (seeds : List Node) {fuel : Nat}
    (hf : fuelBound G ≤ fuel) :
    ∀ rest dU dD st, rest ⊆ seeds →
      loopInv G P upstream downstream upSh downSh seeds dU dD st →
      loopInv G P upstream downstream upSh downSh seeds (dU ++ rest) (dD ++ rest)
        (crawlSeeds G P upstream downstream upSh downSh upFirst fuel rest st) := by
  intro rest
  induction rest with
  | nil =>
      intro dU dD st _ h
      simpa using h
  | cons s rest ih =>
      intro dU dD st hsub h
      have hs : s ∈ seeds := hsub (List.mem_cons_self s rest)
      have hrest : rest ⊆ seeds := fun v hv => hsub (List.mem_cons_of_mem s hv)
      rw [crawlSeeds]
      have hstep : loopInv G P upstream downstream upSh downSh seeds (dU ++ [s]) (dD ++ [s])
          (if upFirst then
            seedPhase G P .down downstream downSh fuel s
              (seedPhase G P .up upstream upSh fuel s st)
          else
            seedPhase G P .up upstream upSh fuel s
              (seedPhase G P .down downstream downSh fuel s st)) := by
        cases upFirst with
        | true =>
            rw [if_pos rfl]
            exact seedPhaseDown_inv G P upstream downstream upSh downSh seeds hf s hs _ _ _
              (seedPhaseUp_inv G P upstream downstream upSh downSh seeds hf s hs _ _ _ h)
        | false =>
            rw [if_neg (by simp)]
            exact seedPhaseUp_inv G P upstream downstream upSh downSh seeds hf s hs _ _ _
              (seedPhaseDown_inv G P upstream downstream upSh downSh seeds hf s hs _ _ _ h)
      have hresult := ih (dU ++ [s]) (dD ++ [s]) _ hrest hstep
      simpa [List.append_assoc] using hresult

/-- In a state whose handled-seed lists cover all seeds, every node reachable
from the seeds is fully processed. -/
theorem reach_processed (d : Dir) (G : Graph) (P : List Node) (seeds : List Node)
    (st : DirSt)
    (hdone : ∀ a ∈ seeds, processed d G P st a)
    (hseen : ∀ x ∈ st.seen, processed d G P st x)
    {a : Node} (ha : reachDir d G P seeds a) : processed d G P st a := by
  obtain ⟨s0, hs0, hpath⟩ := ha
  induction hpath with
  | refl => exact hdone s0 hs0
  | tail hab hbc ih =>
      obtain ⟨t, htG, hsel, hfil, hnext⟩ := hbc
      have htq : t ∈ queryDir d G P _ := mem_queryDir.mpr ⟨htG, hsel, hfil⟩
      have hmem := (ih t htq).2
      rw [hnext] at hmem
      exact hseen _ hmem

/-- The characterization of the crawler's output graph: a triple is returned
iff some enabled direction contributes it, i.e. it is a query row of a node
that is a seed (shallow) or reachable from a seed (deep). -/
theorem extractAux_mem_gout (seeds : List Node) (G : Graph) (P : List Node)
    (upstream downstream : Bool) (shallow : Option Bool) (upSh downSh upFirst : Bool)
    {fuel : Nat} (hf : fuelBound G ≤ fuel) (u : Triple) :
    u ∈ (extractAux seeds G P upstream downstream shallow upSh downSh upFirst fuel).gout ↔
      (upstream = true ∧ charDir .up G P (effSh shallow upSh) seeds u) ∨
      (downstream = true ∧ charDir .down G P (effSh shallow downSh) seeds u) := by
  have hinit : loopInv G P upstream downstream (effSh shallow upSh) (effSh shallow downSh)
      seeds [] [] initSt := by
    refine ⟨?_, ?_, ?_⟩
    · intro v hv; exact absurd hv (List.not_mem_nil v)
    · intro _; exact dirInv_init .up G P _
    · intro _; exact dirInv_init .down G P _
  have hfinal := crawlSeeds_inv G P upstream downstream (effSh shallow upSh)
    (effSh shallow downSh) upFirst seeds hf seeds [] [] initSt (fun v hv => hv) hinit
  simp only [List.nil_append] at hfinal
  obtain ⟨hSound, hUp, hDown⟩ := hfinal
  unfold extractAux
  constructor
  · intro hu
    exact hSound u hu
  · intro hu
    set stF := crawlSeeds G P upstream downstream (effSh shallow upSh) (effSh shallow downSh)
      upFirst fuel seeds initSt with hstF
    rcases hu with ⟨hup, hchar⟩ | ⟨hdown, hchar⟩
    · have hi := hUp hup
      rw [← CrawlSt.gout_dir stF .up]
      cases hsh : effSh shallow upSh with
      | true =>
          rw [hsh] at hi hchar
          obtain ⟨a, ha, t, ht, rfl⟩ := hchar
          exact hi a ha t ht
      | false =>
          rw [hsh] at hi hchar
          obtain ⟨a, ha, t, ht, rfl⟩ := hchar
          exact (reach_processed .up G P seeds _ hi.1 hi.2 ha t ht).1
    · have hi := hDown hdown
      rw [← CrawlSt.gout_dir stF .down]
      cases hsh : effSh shallow downSh with
      | true =>
          rw [hsh] at hi hchar
          obtain ⟨a, ha, t, ht, rfl⟩ := hchar
          exact hi a ha t ht
      | false =>
          rw [hsh] at hi hchar
          obtain ⟨a, ha, t, ht, rfl⟩ := hchar
          exact (reach_processed .down G P seeds _ hi.1 hi.2 ha t ht).1

/-- The characterization depends on the seed list only through membership. -/
theorem charDir_congr (d : Dir) (G : Graph) (P : List Node) (sh : Bool)
    {seeds₁ seeds₂ : List Node} (h : ∀ x, x ∈ seeds₁ ↔ x ∈ seeds₂) (u : Triple) :
    charDir d G P sh seeds₁ u ↔ charDir d G P sh seeds₂ u := by
  cases sh with
  | true =>
      constructor <;> rintro ⟨a, ha, t, ht, rfl⟩
      · exact ⟨a, (h a).mp ha, t, ht, rfl⟩
      · exact ⟨a, (h a).mpr ha, t, ht, rfl⟩
  | false =>
      constructor <;> rintro ⟨a, ⟨s0, hs0, hpath⟩, t, ht, rfl⟩
      · exact ⟨a, ⟨s0, (h s0).mp hs0, hpath⟩, t, ht, rfl⟩
      · exact ⟨a, ⟨s0, (h s0).mpr hs0, hpath⟩, t, ht, rfl⟩

/-! ## Expansion traces: which nodes get (re-)expanded -/

/-- A node already in the seen set, and distinct from the entry node, is
never re-expanded by a finder invocation: its trace count is unchanged. -/
theorem findDir_count (G : Graph) (P : List Node) (d : Dir) (sh : Bool) (x : Node) :
    ∀ fuel e st, x ∈ st.seen → x ≠ e →
      (findDir G P d sh fuel e st).trace.count x = st.trace.count x := by
  intro fuel
  induction fuel with
  | zero => intro e st _ _; rfl
  | succ fuel ih =>
      intro e st hx hne
      rw [findDir]
      have hgo : ∀ rows st', x ∈ st'.seen →
          (goRows d sh (fun y st'' => findDir G P d sh fuel y st'') e rows st').trace.count x
            = st'.trace.count x := by
        intro rows
        induction rows with
        | nil => intro st' _; rfl
        | cons t rest ihr =>
            intro st' hx'
            rw [goRows]
            split
            · exact ihr { st' with gout := addT (outT d e t) st'.gout } hx'
            · next hcond =>
                have hy : d.qnext t ∉ st'.seen := by
                  intro hmem
                  exact hcond (by simp [hmem])
                have hyx : x ≠ d.qnext t := fun hxy => hy (hxy ▸ hx')
                set st1 : DirSt :=
                  { seen := addN (d.qnext t) st'.seen,
                    gout := addT (outT d e t) st'.gout, trace := st'.trace } with hst1
                have hx1 : x ∈ st1.seen := mem_addN.mpr (Or.inr hx')
                have hcount := ih (d.qnext t) st1 hx1 hyx
                have hx2 : x ∈ (findDir G P d sh fuel (d.qnext t) st1).seen :=
                  (findDir_mono G P d sh fuel (d.qnext t) st1).1 hx1
                rw [ihr _ hx2, hcount]
      have htr : ({ st with trace := st.trace ++ [e] } : DirSt).trace.count x
          = st.trace.count x := by
        have : List.count x [e] = 0 := by
          rw [List.count_eq_zero]
          simpa using hne
        simp [List.count_append, this]
      rw [hgo (queryDir d G P e) { st with trace := st.trace ++ [e] } hx, htr]

/-- A seed phase never removes a node from any direction's seen set. -/
theorem seedPhase_seen_mono (G : Graph) (P : List Node) (d2 : Dir) (en sh : Bool)
    (fuel : Nat) (s : Node) (st : CrawlSt) (d : Dir) :
    (st.dir d).seen ⊆ ((seedPhase G P d2 en sh fuel s st).dir d).seen := by
  unfold seedPhase
  split
  · cases d2 <;> cases d <;>
      first
        | exact fun x hx => mem_addN.mpr (Or.inr ((findDir_mono G P _ sh fuel s (st.dir _)).1 hx))
        | exact fun x hx => hx
  · exact fun x hx => hx

/-- A seed phase leaves another direction's trace unchanged, and when it
does act on direction `d`, it cannot re-expand a node of `d`'s seen set
other than the phase's own seed. -/
theorem seedPhase_count (G : Graph) (P : List Node) (d2 : Dir) (en sh : Bool)
    (fuel : Nat) (s : Node) (st : CrawlSt) (d : Dir) (x : Node)
    (hx : x ∈ (st.dir d).seen) (hne : x ≠ s) :
    ((seedPhase G P d2 en sh fuel s st).dir d).trace.count x
      = ((st.dir d).trace).count x := by
  unfold seedPhase
  split
  · cases d2 <;> cases d <;>
      first
        | exact findDir_count G P _ sh x fuel s (st.dir _) hx hne
        | rfl
  · rfl

/-- Processing a seed list is the composition of processing its parts. -/
theorem crawlSeeds_append (G : Graph) (P : List Node)
    (upstream downstream upSh downSh upFirst : Bool) (fuel : Nat) :
    ∀ l₁ l₂ st, crawlSeeds G P upstream downstream upSh downSh upFirst fuel (l₁ ++ l₂) st
      = crawlSeeds G P upstream downstream upSh downSh upFirst fuel l₂
          (crawlSeeds G P upstream downstream upSh downSh upFirst fuel l₁ st) := by
  intro l₁
  induction l₁ with
  | nil => intro l₂ st; rfl
  | cons s rest ih =>
      intro l₂ st
      rw [List.cons_append, crawlSeeds, crawlSeeds]
      exact ih l₂ _

/-- The whole seed loop never removes a node from any direction's seen set. -/
theorem crawlSeeds_seen_mono (G : Graph) (P : List Node)
    (upstream downstream upSh downSh upFirst : Bool) (fuel : Nat) (d : Dir) :
    ∀ seeds st, (st.dir d).seen ⊆
      ((crawlSeeds G P upstream downstream upSh downSh upFirst fuel seeds st).dir d).seen := by
  intro seeds
  induction seeds with
  | nil => intro st x hx; exact hx
  | cons s rest ih =>
      intro st x hx
      rw [crawlSeeds]
      refine ih _ ?_
      split
      · exact seedPhase_seen_mono G P .down downstream downSh fuel s _ d
          (seedPhase_seen_mono G P .up upstream upSh fuel s st d hx)
      · exact seedPhase_seen_mono G P .up upstream upSh fuel s _ d
          (seedPhase_seen_mono G P .down downstream downSh fuel s st d hx)

/-- After the loop has processed a seed, that seed is in every enabled
direction's seen set. -/
theorem crawlSeeds_seed_seen (G : Graph) (P : List Node)
    (upstream downstream upSh downSh upFirst : Bool) (fuel : Nat) (d : Dir)
    (hen : dirEnabled upstream downstream d = true) :
    ∀ seeds st x, x ∈ seeds →
      x ∈ ((crawlSeeds G P upstream downstream upSh downSh upFirst fuel seeds st).dir d).seen := by
  intro seeds
  induction seeds with
  | nil => intro st x hx; exact absurd hx (List.not_mem_nil x)
  | cons s rest ih =>
      intro st x hx
      rw [crawlSeeds]
      rcases List.mem_cons.mp hx with rfl | hx'
      case inr => exact ih _ x hx'
      case inl =>
        refine crawlSeeds_seen_mono G P upstream downstream upSh downSh upFirst fuel d rest _ ?_
        have hself : ∀ st', x ∈ ((seedPhase G P d (dirEnabled upstream downstream d)
            (dirShallow upSh downSh d) fuel x st').dir d).seen := by
          intro st'
          unfold seedPhase
          rw [if_pos hen]
          rw [CrawlSt.dir_setDir]
          exact mem_addN.mpr (Or.inl rfl)
        cases d with
        | up =>
            split
            · exact seedPhase_seen_mono G P .down downstream downSh fuel x _ .up (hself st)
            · exact hself _
        | down =>
            split
            · exact hself _
            · exact seedPhase_seen_mono G P .up upstream upSh fuel x _ .down (hself st)

/-- Once a node is in a direction's seen set, processing further seeds that
are all distinct from it never re-expands it in that direction. -/
theorem crawlSeeds_count (G : Graph) (P : List Node)
    (upstream downstream upSh downSh upFirst : Bool) (fuel : Nat) (d : Dir) (x : Node) :
    ∀ rest st, x ∈ (st.dir d).seen → x ∉ rest →
      ((crawlSeeds G P upstream downstream upSh downSh upFirst fuel rest st).dir d).trace.count x
        = ((st.dir d).trace).count x := by
  intro rest
  induction rest with
  | nil => intro st _ _; rfl
  | cons s rest ih =>
      intro st hx hnr
      have hns : x ≠ s := fun h => hnr (h ▸ List.mem_cons_self s rest)
      have hnr' : x ∉ rest := fun h => hnr (List.mem_cons_of_mem s h)
      rw [crawlSeeds]
      split
      · rw [ih _ (seedPhase_seen_mono G P .down downstream downSh fuel s _ d
            (seedPhase_seen_mono G P .up upstream upSh fuel s st d hx)) hnr']
        rw [seedPhase_count G P .down downstream downSh fuel s _ d x
            (seedPhase_seen_mono G P .up upstream upSh fuel s st d hx) hns]
        rw [seedPhase_count G P .up upstream upSh fuel s st d x hx hns]
      · rw [ih _ (seedPhase_seen_mono G P .up upstream upSh fuel s _ d
            (seedPhase_seen_mono G P .down downstream downSh fuel s st d hx)) hnr']
        rw [seedPhase_count G P .up upstream upSh fuel s _ d x
            (seedPhase_seen_mono G P .down downstream downSh fuel s st d hx) hns]
        rw [seedPhase_count G P .down downstream downSh fuel s st d x hx hns]

/-! ## Claims about the property-path crawler -/

/-- The 3-node cycle A→B→C→A under predicate `iri 10`, with A = `iri 0`,
B = `iri 1`, C = `iri 2`. -/
def cycleGraph : Graph :=
  [⟨.iri 0, .iri 10, .iri 1⟩, ⟨.iri 1, .iri 10, .iri 2⟩, ⟨.iri 2, .iri 10, .iri 0⟩]

/-- C1: for every finite input graph (cycles included), seed list, predicate
set, direction flags and shallow flags, the property-path crawl terminates:
the fuel-indexed embedding of `extract_property_paths` reaches a fixpoint at
any fuel of at least one more than the graph's node count (the bound on the
per-direction visited sets), and the value returned by
`extract_property_paths` is that stable value. -/
theorem C1_extract_property_paths_terminates
    (seeds : List Node) (G : Graph) (P : List Node)
    (upstream downstream : Bool) (shallow : Option Bool) (upSh downSh : Bool)
    {f₁ f₂ : Nat} (h₁ : fuelBound G ≤ f₁) (h₂ : fuelBound G ≤ f₂) :
    extractAux seeds G P upstream downstream shallow upSh downSh true f₁
      = extractAux seeds G P upstream downstream shallow upSh downSh true f₂ ∧
    extract_property_paths seeds G P upstream downstream shallow upSh downSh
      = (extractAux seeds G P upstream downstream shallow upSh downSh true f₁).gout := by
  have e₁ := crawlSeeds_stable G P upstream downstream (effSh shallow upSh)
    (effSh shallow downSh) true h₁ seeds initSt
  have e₂ := crawlSeeds_stable G P upstream downstream (effSh shallow upSh)
    (effSh shallow downSh) true h₂ seeds initSt
  unfold extract_property_paths extractAux
  rw [e₁, e₂]
  have e₀ := crawlSeeds_stable G P upstream downstream (effSh shallow upSh)
    (effSh shallow downSh) true (le_refl (fuelBound G)) seeds initSt
  exact ⟨rfl, by rw [e₀]⟩

/-- Witness for C1 at the concrete cycle graph with two different fuels. -/
theorem C1_witness :
    fuelBound cycleGraph ≤ 4 ∧ fuelBound cycleGraph ≤ 9 ∧
    (extractAux [.iri 0] cycleGraph [.iri 10] false true none true false true 4
        = extractAux [.iri 0] cycleGraph [.iri 10] false true none true false true 9 ∧
      extract_property_paths [.iri 0] cycleGraph [.iri 10] false true none true false
        = (extractAux [.iri 0] cycleGraph [.iri 10] false true none true false true 4).gout) :=
  ⟨by decide, by decide,
    C1_extract_property_paths_terminates [.iri 0] cycleGraph [.iri 10] false true none
      true false (by decide) (by decide)⟩

/-- C2 counterexample: the claim says every seed is added to the visited set
of each enabled direction before expansion begins, so a seed rediscovered
during the recursion is never re-expanded.  In the source the seed is added
only after its expansion returns (`ontology_crawler.py:263-268`), so on the
3-cycle the seed A is rediscovered from C while still unvisited and is
expanded a second time: the downstream expansion trace is [A, B, C, A] and
A's expansion count is 2, not 1. -/
theorem C2_counterexample :
    (extractAux [.iri 0] cycleGraph [.iri 10] false true none true false true
        (fuelBound cycleGraph)).traceDown = [.iri 0, .iri 1, .iri 2, .iri 0] ∧
    ((extractAux [.iri 0] cycleGraph [.iri 10] false true none true false true
        (fuelBound cycleGraph)).traceDown).count (.iri 0) = 2 := by
  decide

/-- C2 (amended): each seed is added to a direction's visited set immediately
after its own top-level expansion in that enabled direction returns; hence
once the seed loop has handled a seed, later seeds' expansions never
re-expand it in that direction (its expansion-trace count stays fixed),
though a seed may still be re-expanded once if rediscovered during its own
recursive expansion. -/
theorem C2_amended_seed_visited_after_own_expansion
    (G : Graph) (P : List Node) (upstream downstream : Bool) (shallow : Option Bool)
    (upSh downSh upFirst : Bool) (fuel : Nat) (d : Dir)
    (hen : dirEnabled upstream downstream d = true)
    (pre rest : List Node) (x : Node) (hx : x ∈ pre) (hnr : x ∉ rest) :
    x ∈ ((extractAux pre G P upstream downstream shallow upSh downSh upFirst fuel).dir d).seen ∧
    ((extractAux (pre ++ rest) G P upstream downstream shallow upSh downSh upFirst fuel).dir d).trace.count x
      = ((extractAux pre G P upstream downstream shallow upSh downSh upFirst fuel).dir d).trace.count x := by
  unfold extractAux
  have hseen := crawlSeeds_seed_seen G P upstream downstream (effSh shallow upSh)
    (effSh shallow downSh) upFirst fuel d hen pre initSt x hx
  refine ⟨hseen, ?_⟩
  rw [crawlSeeds_append]
  exact crawlSeeds_count G P upstream downstream (effSh shallow upSh) (effSh shallow downSh)
    upFirst fuel d x rest _ hseen hnr

/-- Witness for the amended C2 on the cycle graph with a second seed. -/
theorem C2_amended_witness :
    dirEnabled false true Dir.down = true ∧ Node.iri 0 ∈ [Node.iri 0] ∧
      (Node.iri 0 ∉ [Node.iri 5]) ∧
    (Node.iri 0 ∈ ((extractAux [Node.iri 0] cycleGraph [.iri 10] false true none true false
        true 4).dir .down).seen ∧
      ((extractAux ([Node.iri 0] ++ [Node.iri 5]) cycleGraph [.iri 10] false true none true false
          true 4).dir .down).trace.count (Node.iri 0)
        = ((extractAux [Node.iri 0] cycleGraph [.iri 10] false true none true false
          true 4).dir .down).trace.count (Node.iri 0)) :=
  ⟨by decide, by decide, by decide,
    C2_amended_seed_visited_after_own_expansion cycleGraph [.iri 10] false true none true false
      true 4 .down (by decide) [Node.iri 0] [Node.iri 5] (Node.iri 0) (by decide) (by decide)⟩

/-- C3: on the 3-node cycle A→B→C→A under a crawled predicate, the crawl
from seed A with downstream enabled and `down_shallow = False` terminates
and returns exactly the 3 cycle edges, each exactly once. -/
theorem C3_cycle_exact_edges :
    (extract_property_paths [.iri 0] cycleGraph [.iri 10] false true none true false).Perm
      cycleGraph ∧
    (extract_property_paths [.iri 0] cycleGraph [.iri 10] false true none true false).Nodup := by
  decide

/-- C4: the result graph of `extract_property_paths` is the same triple set
for every permutation of the seed list and either order of processing the
two directions (`extractAux` with `upFirst = true` is the source's order;
`upFirst = false` swaps the two direction blocks of the seed loop). -/
theorem C4_order_independence (seeds₁ seeds₂ : List Node) (G : Graph) (P : List Node)
    (upstream downstream : Bool) (shallow : Option Bool) (upSh downSh : Bool)
    (o₂ : Bool) (hperm : seeds₁.Perm seeds₂) (t : Triple) :
    t ∈ extract_property_paths seeds₁ G P upstream downstream shallow upSh downSh ↔
      t ∈ (extractAux seeds₂ G P upstream downstream shallow upSh downSh o₂ (fuelBound G)).gout := by
  have hmem : ∀ x, x ∈ seeds₁ ↔ x ∈ seeds₂ := fun x => hperm.mem_iff
  unfold extract_property_paths
  rw [extractAux_mem_gout seeds₁ G P upstream downstream shallow upSh downSh true
      (le_refl (fuelBound G)) t,
    extractAux_mem_gout seeds₂ G P upstream downstream shallow upSh downSh o₂
      (le_refl (fuelBound G)) t,
    charDir_congr .up G P (effSh shallow upSh) hmem t,
    charDir_congr .down G P (effSh shallow downSh) hmem t]

/-- Witness for C4: permuted seeds and swapped direction order on the cycle
graph agree on a concrete triple. -/
theorem C4_witness :
    ([Node.iri 0, Node.iri 1].Perm [Node.iri 1, Node.iri 0]) ∧
    ((⟨.iri 0, .iri 10, .iri 1⟩ : Triple) ∈
        extract_property_paths [Node.iri 0, Node.iri 1] cycleGraph [.iri 10] true true none false false ↔
      (⟨.iri 0, .iri 10, .iri 1⟩ : Triple) ∈
        (extractAux [Node.iri 1, Node.iri 0] cycleGraph [.iri 10] true true none false false false
          (fuelBound cycleGraph)).gout) :=
  ⟨by decide,
    C4_order_independence [Node.iri 0, Node.iri 1] [Node.iri 1, Node.iri 0] cycleGraph [.iri 10]
      true true none false false false (by decide) ⟨.iri 0, .iri 10, .iri 1⟩⟩

/-! ## The BioPortal crawler (`extract_bioportal_property_paths`)

`src/bioportal_crawler.py` lines 25–191.  The query handlers
`_query_bioportal_downstream` / `_query_bioportal_upstream` return
`SELECT DISTINCT ?pred ?kn` binding pairs and coerce every binding value
through `URIRef(...)`, so the crawl works on *string* pairs re-wrapped as
IRIs; the recursion handlers `_crawl_bioportal_downstream` /
`_crawl_bioportal_upstream` check the seen set at entry, mark the node,
add all rows, and recurse over the deduplicated neighbour set. -/

/-- The DISTINCT binding pairs (`str(?pred)`, `str(?kn)`) of one BioPortal
query (`bioportal_crawler.py:45-72` downstream, `75-102` upstream). -/
def queryB (d : Dir) (G : Graph) (P : List Node) (k : Node) : List (Nat × Nat) :=
  ((G.filter fun t => decide (d.qsel t = k.anchor) && predFilter P t.p).map
    (fun t => (t.p.strOf, (d.qnext t).strOf))).dedup

/-- The triple added per binding pair: downstream `(k, URIRef(pred),
URIRef(kn))` (`bioportal_crawler.py:66-69`), upstream `(URIRef(kn),
URIRef(pred), k)` (`bioportal_crawler.py:96-99`). -/
def outB (d : Dir) (k : Node) (pr : Nat × Nat) : Triple :=
  match d with
  | .down => ⟨k, .iri pr.1, .iri pr.2⟩
  | .up => ⟨.iri pr.2, .iri pr.1, k⟩

/-- The set of leaf nodes returned by one query handler:
`{URIRef(result["kn"]["value"]) for ...}`. -/
def parentsB (d : Dir) (G : Graph) (P : List Node) (k : Node) : List Node :=
  ((queryB d G P k).map (fun pr => Node.iri pr.2)).dedup

/-- Per-direction BioPortal state: the direction's seen set and the shared
`bioportal_graph`. -/
structure BSt where
  seen : List Node
  gout : Graph
deriving DecidableEq, Repr

/-- The recursion over a neighbour set (`for k_n in parents:` at
`bioportal_crawler.py:136-138` / `173-175`). -/
def goParents (expand : Node → BSt → BSt) : List Node → BSt → BSt
  | [], st => st
  | y :: ys, st => goParents expand ys (expand y st)

/-- `_crawl_bioportal_downstream` / `_crawl_bioportal_upstream`
(`bioportal_crawler.py:106-141` / `143-177`): return at once when the node
was seen; otherwise mark it seen, add all its query rows to the shared
graph, and — unless the direction is shallow — recurse into each
neighbour. -/
def crawlB (G : Graph) (P : List Node) (d : Dir) (sh : Bool) :
    Nat → Node → BSt → BSt
  | 0, _, st => st
  | fuel + 1, k, st =>
      if k ∈ st.seen then st
      else
        let st1 : BSt :=
          { seen := addN k st.seen,
            gout := (queryB d G P k).foldl (fun g pr => addT (outB d k pr) g) st.gout }
        if sh then st1
        else goParents (fun y st' => crawlB G P d sh fuel y st') (parentsB d G P k) st1

/-- Full BioPortal crawl state: the two per-direction seen sets and the
shared `bioportal_graph`. -/
structure BioSt where
  seenUp : List Node
  seenDown : List Node
  gout : Graph
deriving DecidableEq, Repr

/-- Project the BioPortal state onto one direction. -/
def BioSt.bdir (st : BioSt) : Dir → BSt
  | .up => ⟨st.seenUp, st.gout⟩
  | .down => ⟨st.seenDown, st.gout⟩

/-- Write one direction's substate back. -/
def BioSt.setBdir (st : BioSt) : Dir → BSt → BioSt
  | .up, r => { st with seenUp := r.seen, gout := r.gout }
  | .down, r => { st with seenDown := r.seen, gout := r.gout }

/-- One direction's block of the BioPortal seed loop
(`bioportal_crawler.py:181-189`): when enabled, run the recursive crawl on
the seed (the seed is *not* post-added to the seen set here; the crawl
itself marks it at entry). -/
def bioPhase (G : Graph) (P : List Node) (d : Dir) (enabled sh : Bool)
    (fuel : Nat) (k : Node) (st : BioSt) : BioSt :=
  if enabled then st.setBdir d (crawlB G P d sh fuel k (st.bdir d))
  else st

/-- The BioPortal seed loop: for each seed, downstream first, then
upstream (`bioportal_crawler.py:181-189`). -/
def bioCrawlSeeds (G : Graph) (P : List Node) (downstream upstream downSh upSh : Bool)
    (fuel : Nat) : List Node → BioSt → BioSt
  | [], st => st
  | k :: rest, st =>
      bioCrawlSeeds G P downstream upstream downSh upSh fuel rest
        (bioPhase G P .up upstream upSh fuel k
          (bioPhase G P .down downstream downSh fuel k st))

/-- The recursive calls of the BioPortal crawl are always on `URIRef`-coerced
nodes, i.e. anchors of graph nodes. -/
def poolB (G : Graph) : List Node := (nodesOf G).map Node.anchor

/-- Fuel bound for the BioPortal crawl: the seed level plus one level per
distinct coerced graph node. -/
def fuelBoundB (G : Graph) : Nat := (poolB G).dedup.length + 2

/-- `extract_bioportal_property_paths(seeds, bioportal, properties,
downstream=, upstream=, up_shallow=, down_shallow=)` over an endpoint
serving exactly the triples `G`: the returned `bioportal_graph`. -/
def extract_bioportal_property_paths (seeds : List Node) (G : Graph) (P : List Node)
    (downstream upstream : Bool) (upSh downSh : Bool) : Graph :=
  (bioCrawlSeeds G P downstream upstream downSh upSh (fuelBoundB G) seeds ⟨[], [], []⟩).gout

/-! ### BioPortal crawl: basic lemmas -/

theorem mem_foldl_addT {α : Type} (f : α → Triple) (l : List α) (g0 : Graph) (u : Triple) :
    u ∈ l.foldl (fun g pr => addT (f pr) g) g0 ↔ u ∈ g0 ∨ ∃ pr ∈ l, u = f pr := by
  induction l generalizing g0 with
  | nil => simp
  | cons a l ih =>
      rw [List.foldl_cons, ih, mem_addT]
      constructor
      · rintro ((rfl | h) | ⟨pr, hpr, rfl⟩)
        · exact Or.inr ⟨a, List.mem_cons_self a l, rfl⟩
        · exact Or.inl h
        · exact Or.inr ⟨pr, List.mem_cons_of_mem a hpr, rfl⟩
      · rintro (h | ⟨pr, hpr, rfl⟩)
        · exact Or.inl (Or.inr h)
        · rcases List.mem_cons.mp hpr with rfl | hpr'
          · exact Or.inl (Or.inl rfl)
          · exact Or.inr ⟨pr, hpr', rfl⟩

/-- Monotonicity of the BioPortal crawl state. -/
theorem crawlB_mono (G : Graph) (P : List Node) (d : Dir) (sh : Bool) :
    ∀ fuel k st, st.seen ⊆ (crawlB G P d sh fuel k st).seen ∧
      st.gout ⊆ (crawlB G P d sh fuel k st).gout := by
  intro fuel
  induction fuel with
  | zero => intro k st; exact ⟨fun x hx => hx, fun x hx => hx⟩
  | succ fuel ih =>
      intro k st
      rw [crawlB]
      split
      · exact ⟨fun x hx => hx, fun x hx => hx⟩
      · set st1 : BSt :=
          { seen := addN k st.seen,
            gout := (queryB d G P k).foldl (fun g pr => addT (outB d k pr) g) st.gout } with hst1
        have h01 : st.seen ⊆ st1.seen ∧ st.gout ⊆ st1.gout := by
          refine ⟨fun x hx => mem_addN.mpr (Or.inr hx), fun u hu => ?_⟩
          exact (mem_foldl_addT _ _ _ u).mpr (Or.inl hu)
        split
        · exact h01
        · have hgo : ∀ ys st', st'.seen ⊆ (goParents (fun y st'' => crawlB G P d sh fuel y st'') ys st').seen ∧
              st'.gout ⊆ (goParents (fun y st'' => crawlB G P d sh fuel y st'') ys st').gout := by
            intro ys
            induction ys with
            | nil => intro st'; exact ⟨fun x hx => hx, fun x hx => hx⟩
            | cons y ys ihy =>
                intro st'
                rw [goParents]
                refine ⟨fun x hx => (ihy _).1 ((ih y st').1 hx),
                  fun x hx => (ihy _).2 ((ih y st').2 hx)⟩
          exact ⟨fun x hx => (hgo _ st1).1 (h01.1 hx), fun x hx => (hgo _ st1).2 (h01.2 hx)⟩

/-- Distinct coerced nodes of `G` not yet seen — the decreasing measure of
the BioPortal recursion. -/
def unseenB (G : Graph) (seen : List Node) : Nat :=
  ((poolB G).dedup.filter (fun x => decide (x ∉ seen))).length

theorem unseenB_le (G : Graph) (seen : List Node) :
    unseenB G seen ≤ (poolB G).dedup.length :=
  List.length_filter_le _ _

theorem unseenB_anti (G : Graph) {s s' : List Node} (h : s ⊆ s') :
    unseenB G s' ≤ unseenB G s := by
  refine length_filter_le_of_imp _ _ _ ?_
  intro x hx
  simp only [decide_eq_true_eq] at *
  exact fun hmem => hx (h hmem)

theorem unseenB_lt (G : Graph) {seen : List Node} {y : Node}
    (hyG : y ∈ poolB G) (hy : y ∉ seen) :
    unseenB G (addN y seen) < unseenB G seen := by
  refine length_filter_lt_of_imp _ _ _ ?_ y (List.mem_dedup.mpr hyG) ?_ ?_
  · intro x hx
    simp only [decide_eq_true_eq] at *
    exact fun hmem => hx (mem_addN.mpr (Or.inr hmem))
  · simpa using hy
  · simp [mem_addN]

theorem parentsB_subset_poolB (d : Dir) (G : Graph) (P : List Node) (k : Node) :
    parentsB d G P k ⊆ poolB G := by
  intro y hy
  obtain ⟨pr, hpr, rfl⟩ := List.mem_map.mp (List.mem_dedup.mp hy)
  obtain ⟨t, ht, rfl⟩ := List.mem_map.mp (List.mem_dedup.mp hpr)
  have htG : t ∈ G := List.mem_of_mem_filter ht
  have hnode : d.qnext t ∈ nodesOf G := by
    cases d with
    | down => exact List.mem_append.mpr (Or.inr (List.mem_map.mpr ⟨t, htG, rfl⟩))
    | up => exact List.mem_append.mpr (Or.inl (List.mem_map.mpr ⟨t, htG, rfl⟩))
  exact List.mem_map.mpr ⟨d.qnext t, hnode, rfl⟩

/-- A BioPortal node is fully processed in a state: its rows are in the
shared graph and its neighbours are all seen. -/
def processedB (d : Dir) (G : Graph) (P : List Node) (st : BSt) (a : Node) : Prop :=
  (∀ pr ∈ queryB d G P a, outB d a pr ∈ st.gout) ∧
  ∀ y ∈ parentsB d G P a, y ∈ st.seen

theorem processedB_mono {d : Dir} {G : Graph} {P : List Node} {st st' : BSt} {a : Node}
    (hseen : st.seen ⊆ st'.seen) (hgout : st.gout ⊆ st'.gout)
    (h : processedB d G P st a) : processedB d G P st' a :=
  ⟨fun pr hpr => hgout (h.1 pr hpr), fun y hy => hseen (h.2 y hy)⟩

/-- The first level of a shallow BioPortal crawl, written out. -/
theorem crawlB_shallow (G : Graph) (P : List Node) (d : Dir) (fuel : Nat) (k : Node)
    (st : BSt) :
    crawlB G P d true (fuel + 1) k st =
      if k ∈ st.seen then st
      else { seen := addN k st.seen,
             gout := (queryB d G P k).foldl (fun g pr => addT (outB d k pr) g) st.gout } := by
  rw [crawlB]
  split
  · rfl
  · rw [if_pos rfl]

/-- The neighbour recursion only grows the state. -/
theorem goParents_mono (G : Graph) (P : List Node) (d : Dir) (sh : Bool) (fuel : Nat) :
    ∀ ys st, st.seen ⊆ (goParents (fun y st'' => crawlB G P d sh fuel y st'') ys st).seen ∧
      st.gout ⊆ (goParents (fun y st'' => crawlB G P d sh fuel y st'') ys st).gout := by
  intro ys
  induction ys with
  | nil => intro st; exact ⟨fun x hx => hx, fun x hx => hx⟩
  | cons z zs ihz =>
      intro st
      rw [goParents]
      have hmz := crawlB_mono G P d sh fuel z st
      obtain ⟨ih1, ih2⟩ := ihz (crawlB G P d sh fuel z st)
      exact ⟨fun x hx => ih1 (hmz.1 hx), fun x hx => ih2 (hmz.2 hx)⟩

/-- Completeness of the BioPortal neighbour recursion, given completeness of
the recursive crawl at the same fuel. -/
theorem goParents_complete (G : Graph) (P : List Node) (d : Dir) (fuel : Nat)
    (hin : ∀ k st, k ∈ poolB G → unseenB G st.seen < fuel →
      k ∈ (crawlB G P d false fuel k st).seen ∧
      ∀ x ∈ (crawlB G P d false fuel k st).seen, x ∈ st.seen ∨
        processedB d G P (crawlB G P d false fuel k st) x) :
    ∀ ys st', ys ⊆ poolB G → unseenB G st'.seen < fuel →
      (∀ y ∈ ys, y ∈ (goParents (fun y st'' => crawlB G P d false fuel y st'') ys st').seen) ∧
      ∀ x ∈ (goParents (fun y st'' => crawlB G P d false fuel y st'') ys st').seen,
        x ∈ st'.seen ∨
          processedB d G P (goParents (fun y st'' => crawlB G P d false fuel y st'') ys st') x := by
  intro ys
  induction ys with
  | nil =>
      intro st' _ _
      exact ⟨fun y hy => absurd hy (List.not_mem_nil y), fun x hx => Or.inl hx⟩
  | cons y ys ihy =>
      intro st' hsub hcnt
      have hy : y ∈ poolB G := hsub (List.mem_cons_self y ys)
      have hys : ys ⊆ poolB G := fun v hv => hsub (List.mem_cons_of_mem y hv)
      rw [goParents]
      set st2 := crawlB G P d false fuel y st' with hst2
      have hm2 := crawlB_mono G P d false fuel y st'
      have hcnt2 : unseenB G st2.seen < fuel :=
        Nat.lt_of_le_of_lt (unseenB_anti G hm2.1) hcnt
      obtain ⟨hy2, hnew2⟩ := hin y st' hy hcnt
      obtain ⟨hys3, hnew3⟩ := ihy st2 hys hcnt2
      have hmgo := goParents_mono G P d false fuel ys st2
      refine ⟨?_, ?_⟩
      · intro v hv
        rcases List.mem_cons.mp hv with rfl | hv'
        · exact hmgo.1 hy2
        · exact hys3 v hv'
      · intro x hx
        rcases hnew3 x hx with h | h
        · rcases hnew2 x h with h2 | h2
          · exact Or.inl h2
          · exact Or.inr (processedB_mono hmgo.1 hmgo.2 h2)
        · exact Or.inr h

/-- Completeness of the deep BioPortal crawl for pool nodes. -/
theorem crawlB_complete_in (G : Graph) (P : List Node) (d : Dir) :
    ∀ fuel k st, k ∈ poolB G → unseenB G st.seen < fuel →
      k ∈ (crawlB G P d false fuel k st).seen ∧
      ∀ x ∈ (crawlB G P d false fuel k st).seen, x ∈ st.seen ∨
        processedB d G P (crawlB G P d false fuel k st) x := by
  intro fuel
  induction fuel with
  | zero => intro k st _ h; cases Nat.not_lt_zero _ h
  | succ fuel ih =>
      intro k st hk hcnt
      rw [crawlB]
      split
      · next hmem => exact ⟨hmem, fun x hx => Or.inl hx⟩
      · next hmem =>
          rw [if_neg (by simp)]
          set st1 : BSt :=
            { seen := addN k st.seen,
              gout := (queryB d G P k).foldl (fun g pr => addT (outB d k pr) g) st.gout } with hst1
          have hcnt1 : unseenB G st1.seen < fuel := by
            have h1 : unseenB G st1.seen < unseenB G st.seen := unseenB_lt G hk hmem
            omega
          obtain ⟨hall, hnew⟩ := goParents_complete G P d fuel (fun k' st' => ih k' st')
            (parentsB d G P k) st1 (parentsB_subset_poolB d G P k) hcnt1
          set res := goParents (fun y st'' => crawlB G P d false fuel y st'')
            (parentsB d G P k) st1 with hres
          have hmgo : st1.seen ⊆ res.seen ∧ st1.gout ⊆ res.gout :=
            goParents_mono G P d false fuel (parentsB d G P k) st1
          refine ⟨hmgo.1 (mem_addN.mpr (Or.inl rfl)), ?_⟩
          intro x hx
          rcases hnew x hx with h | h
          · rcases mem_addN.mp h with rfl | h2
            · refine Or.inr ⟨fun pr hpr => ?_, fun y hy => hall y hy⟩
              exact hmgo.2 ((mem_foldl_addT _ _ _ _).mpr (Or.inr ⟨pr, hpr, rfl⟩))
            · exact Or.inl h2
          · exact Or.inr h

/-- Completeness of the deep BioPortal crawl for an arbitrary entry node
(one extra fuel level for the seed itself). -/
theorem crawlB_complete_top (G : Graph) (P : List Node) (d : Dir) :
    ∀ fuel k st, unseenB G st.seen + 1 < fuel →
      k ∈ (crawlB G P d false fuel k st).seen ∧
      ∀ x ∈ (crawlB G P d false fuel k st).seen, x ∈ st.seen ∨
        processedB d G P (crawlB G P d false fuel k st) x := by
  intro fuel
  cases fuel with
  | zero => intro k st h; cases Nat.not_lt_zero _ h
  | succ fuel =>
      intro k st hcnt
      rw [crawlB]
      split
      · next hmem => exact ⟨hmem, fun x hx => Or.inl hx⟩
      · next hmem =>
          rw [if_neg (by simp)]
          set st1 : BSt :=
            { seen := addN k st.seen,
              gout := (queryB d G P k).foldl (fun g pr => addT (outB d k pr) g) st.gout } with hst1
          have hcnt1 : unseenB G st1.seen < fuel := by
            have h1 : unseenB G st1.seen ≤ unseenB G st.seen :=
              unseenB_anti G (fun x hx => mem_addN.mpr (Or.inr hx))
            omega
          obtain ⟨hall, hnew⟩ := goParents_complete G P d fuel
            (fun k' st' => crawlB_complete_in G P d fuel k' st')
            (parentsB d G P k) st1 (parentsB_subset_poolB d G P k) hcnt1
          set res := goParents (fun y st'' => crawlB G P d false fuel y st'')
            (parentsB d G P k) st1 with hres
          have hmgo : st1.seen ⊆ res.seen ∧ st1.gout ⊆ res.gout :=
            goParents_mono G P d false fuel (parentsB d G P k) st1
          refine ⟨hmgo.1 (mem_addN.mpr (Or.inl rfl)), ?_⟩
          intro x hx
          rcases hnew x hx with h | h
          · rcases mem_addN.mp h with rfl | h2
            · refine Or.inr ⟨fun pr hpr => ?_, fun y hy => hall y hy⟩
              exact hmgo.2 ((mem_foldl_addT _ _ _ _).mpr (Or.inr ⟨pr, hpr, rfl⟩))
            · exact Or.inl h2
          · exact Or.inr h

/-- One BioPortal traversal step: `b` is one of the coerced neighbours
returned for `a`. -/
def stepB (d : Dir) (G : Graph) (P : List Node) (a b : Node) : Prop :=
  b ∈ parentsB d G P a

/-- Nodes reachable from the seeds by BioPortal steps. -/
def reachB (d : Dir) (G : Graph) (P : List Node) (seeds : List Node) (a : Node) : Prop :=
  ∃ s ∈ seeds, Relation.ReflTransGen (stepB d G P) s a

/-- The set of triples a direction contributes to the BioPortal graph. -/
def charB (d : Dir) (G : Graph) (P : List Node) (sh : Bool) (seeds : List Node)
    (u : Triple) : Prop :=
  ∃ a, (match sh with
         | true => a ∈ seeds
         | false => reachB d G P seeds a) ∧
    ∃ pr ∈ queryB d G P a, u = outB d a pr

/-- Soundness of the BioPortal crawl: every triple added to the shared graph
is a row of a node satisfying any step-closed predicate holding at entry. -/
theorem crawlB_sound (G : Graph) (P : List Node) (d : Dir) (sh : Bool)
    (R : Node → Prop) (hstep : ∀ a b, R a → stepB d G P a b → R b) :
    ∀ fuel k st, R k → ∀ u ∈ (crawlB G P d sh fuel k st).gout, u ∈ st.gout ∨
      ∃ a pr, R a ∧ pr ∈ queryB d G P a ∧ u = outB d a pr := by
  intro fuel
  induction fuel with
  | zero => intro k st _ u hu; exact Or.inl hu
  | succ fuel ih =>
      intro k st hRk
      rw [crawlB]
      split
      · intro u hu; exact Or.inl hu
      · set st1 : BSt :=
          { seen := addN k st.seen,
            gout := (queryB d G P k).foldl (fun g pr => addT (outB d k pr) g) st.gout } with hst1
        have h1 : ∀ u ∈ st1.gout, u ∈ st.gout ∨
            ∃ a pr, R a ∧ pr ∈ queryB d G P a ∧ u = outB d a pr := by
          intro u hu
          rcases (mem_foldl_addT _ _ _ u).mp hu with h | ⟨pr, hpr, rfl⟩
          · exact Or.inl h
          · exact Or.inr ⟨k, pr, hRk, hpr, rfl⟩
        split
        · exact h1
        · have hgo : ∀ ys st', (∀ y ∈ ys, R y) →
              (∀ u ∈ (st' : BSt).gout, u ∈ st.gout ∨
                ∃ a pr, R a ∧ pr ∈ queryB d G P a ∧ u = outB d a pr) →
              ∀ u ∈ (goParents (fun y st'' => crawlB G P d sh fuel y st'') ys st').gout,
                u ∈ st.gout ∨ ∃ a pr, R a ∧ pr ∈ queryB d G P a ∧ u = outB d a pr := by
            intro ys
            induction ys with
            | nil => intro st' _ hbase u hu; exact hbase u hu
            | cons y ys ihy =>
                intro st' hys hbase u hu
                rw [goParents] at hu
                refine ihy _ (fun v hv => hys v (List.mem_cons_of_mem y hv)) ?_ u hu
                intro v hv
                rcases ih y st' (hys y (List.mem_cons_self y ys)) v hv with h | h
                · exact hbase v h
                · exact Or.inr h
          exact hgo (parentsB d G P k) st1
            (fun y hy => hstep k y hRk hy) h1

/-- All rows of `a` are in the accumulated graph. -/
def rowsInB (d : Dir) (G : Graph) (P : List Node) (gout : Graph) (a : Node) : Prop :=
  ∀ pr ∈ queryB d G P a, outB d a pr ∈ gout

/-- Per-direction completeness invariant of the BioPortal seed loop. -/
def bdirInv (d : Dir) (G : Graph) (P : List Node) (sh : Bool) (done : List Node)
    (st : BSt) : Prop :=
  match sh with
  | true => (∀ a ∈ done, rowsInB d G P st.gout a) ∧ ∀ x ∈ st.seen, rowsInB d G P st.gout x
  | false => (∀ a ∈ done, a ∈ st.seen) ∧ ∀ x ∈ st.seen, processedB d G P st x

/-- One shallow BioPortal crawl preserves the direction invariant and covers
one more seed. -/
theorem bdirInv_shallow_stepB (d : Dir) (G : Graph) (P : List Node) {fuel : Nat}
    (hf1 : 1 ≤ fuel) (done : List Node) (k : Node) (st : BSt)
    (h : bdirInv d G P true done st) :
    bdirInv d G P true (done ++ [k]) (crawlB G P d true fuel k st) := by
  cases fuel with
  | zero => exact (Nat.not_succ_le_zero 0 hf1).elim
  | succ fuel =>
      rw [crawlB_shallow]
      split
      · next hmem =>
          refine ⟨?_, h.2⟩
          intro a ha
          rcases List.mem_append.mp ha with hd | hsngl
          · exact h.1 a hd
          · have : a = k := by simpa using hsngl
            subst this
            exact h.2 a hmem
      · next hmem =>
          have hgrow : st.gout ⊆
              (queryB d G P k).foldl (fun g pr => addT (outB d k pr) g) st.gout :=
            fun u hu => (mem_foldl_addT _ _ _ u).mpr (Or.inl hu)
          refine ⟨?_, ?_⟩
          · intro a ha
            rcases List.mem_append.mp ha with hd | hsngl
            · exact fun pr hpr => hgrow (h.1 a hd pr hpr)
            · have : a = k := by simpa using hsngl
              subst this
              exact fun pr hpr => (mem_foldl_addT _ _ _ _).mpr (Or.inr ⟨pr, hpr, rfl⟩)
          · intro x hx
            rcases mem_addN.mp hx with rfl | hx'
            · exact fun pr hpr => (mem_foldl_addT _ _ _ _).mpr (Or.inr ⟨pr, hpr, rfl⟩)
            · exact fun pr hpr => hgrow (h.2 x hx' pr hpr)

/-- One deep BioPortal crawl preserves the direction invariant and covers
one more seed. -/
theorem bdirInv_deep_stepB (d : Dir) (G : Graph) (P : List Node) {fuel : Nat}
    (done : List Node) (k : Node) (st : BSt)
    (hcnt : unseenB G st.seen + 1 < fuel)
    (h : bdirInv d G P false done st) :
    bdirInv d G P false (done ++ [k]) (crawlB G P d false fuel k st) := by
  obtain ⟨hkmem, hnew⟩ := crawlB_complete_top G P d fuel k st hcnt
  have hmono := crawlB_mono G P d false fuel k st
  refine ⟨?_, ?_⟩
  · intro a ha
    rcases List.mem_append.mp ha with hd | hsngl
    · exact hmono.1 (h.1 a hd)
    · have : a = k := by simpa using hsngl
      subst this
      exact hkmem
  · intro x hx
    rcases hnew x hx with hold | hproc
    · exact processedB_mono hmono.1 hmono.2 (h.2 x hold)
    · exact hproc

/-- The BioPortal crawl's additions are characterized triples when the entry
node is a seed. -/
theorem crawlB_gout_char (d : Dir) (G : Graph) (P : List Node) (sh : Bool)
    (seeds : List Node) {fuel : Nat} (hf1 : 1 ≤ fuel) (k : Node) (hk : k ∈ seeds)
    (st : BSt) :
    ∀ u ∈ (crawlB G P d sh fuel k st).gout, u ∈ st.gout ∨ charB d G P sh seeds u := by
  cases sh with
  | true =>
      cases fuel with
      | zero => exact (Nat.not_succ_le_zero 0 hf1).elim
      | succ fuel =>
          rw [crawlB_shallow]
          split
          · intro u hu; exact Or.inl hu
          · intro u hu
            rcases (mem_foldl_addT _ _ _ u).mp hu with hold | ⟨pr, hpr, rfl⟩
            · exact Or.inl hold
            · exact Or.inr ⟨k, hk, pr, hpr, rfl⟩
  | false =>
      intro u hu
      rcases crawlB_sound G P d false (reachB d G P seeds)
          (fun a b ha hab => by
            obtain ⟨s0, hs0, hpath⟩ := ha
            exact ⟨s0, hs0, hpath.tail hab⟩)
          fuel k st ⟨k, hk, Relation.ReflTransGen.refl⟩ u hu with h | ⟨a, pr, ha, hpr, rfl⟩
      · exact Or.inl h
      · exact Or.inr ⟨a, ha, pr, hpr, rfl⟩

/-- Soundness invariant of the BioPortal seed loop. -/
def bioSoundInv (G : Graph) (P : List Node) (downstream upstream downSh upSh : Bool)
    (seeds : List Node) (gout : Graph) : Prop :=
  ∀ u ∈ gout, (downstream = true ∧ charB .down G P downSh seeds u) ∨
    (upstream = true ∧ charB .up G P upSh seeds u)

/-- Combined invariant of the BioPortal seed loop. -/
def bioLoopInv (G : Graph) (P : List Node) (downstream upstream downSh upSh : Bool)
    (seeds dD dU : List Node) (st : BioSt) : Prop :=
  bioSoundInv G P downstream upstream downSh upSh seeds st.gout ∧
  (downstream = true → bdirInv .down G P downSh dD (st.bdir .down)) ∧
  (upstream = true → bdirInv .up G P upSh dU (st.bdir .up))

theorem bdirInv_gout_mono {d : Dir} {G : Graph} {P : List Node} {sh : Bool}
    {done : List Node} {st st' : BSt} (hseen : st'.seen = st.seen)
    (hgout : st.gout ⊆ st'.gout) (h : bdirInv d G P sh done st) :
    bdirInv d G P sh done st' := by
  cases sh with
  | true =>
      exact ⟨fun a ha pr hpr => hgout (h.1 a ha pr hpr),
        fun x hx pr hpr => hgout (h.2 x (hseen ▸ hx) pr hpr)⟩
  | false =>
      refine ⟨fun a ha => hseen ▸ h.1 a ha, fun x hx => ?_⟩
      have := h.2 x (hseen ▸ hx)
      exact ⟨fun pr hpr => hgout (this.1 pr hpr), fun y hy => hseen ▸ this.2 y hy⟩

/-- The downstream phase of the BioPortal seed loop preserves the loop
invariant. -/
theorem bioPhaseDown_inv (G : Graph) (P : List Node)
    (downstream upstream downSh upSh : Bool) (seeds : List Node) {fuel : Nat}
    (hf : fuelBoundB G ≤ fuel) (k : Node) (hk : k ∈ seeds) (dD dU : List Node)
    (st : BioSt) (h : bioLoopInv G P downstream upstream downSh upSh seeds dD dU st) :
    bioLoopInv G P downstream upstream downSh upSh seeds (dD ++ [k]) dU
      (bioPhase G P .down downstream downSh fuel k st) := by
  obtain ⟨hSound, hDown, hUp⟩ := h
  have hboundLe : (poolB G).dedup.length + 2 ≤ fuel := hf
  have hf1 : 1 ≤ fuel := by omega
  have hcnt : unseenB G (st.bdir .down).seen + 1 < fuel := by
    have h1 := unseenB_le G (st.bdir .down).seen
    have h2 : (poolB G).dedup.length + 2 ≤ fuel := hf
    omega
  unfold bioPhase
  cases downstream with
  | false =>
      rw [if_neg (by simp)]
      exact ⟨hSound, fun hdn => absurd hdn (by simp), hUp⟩
  | true =>
      rw [if_pos rfl]
      set r := crawlB G P .down downSh fuel k (st.bdir .down) with hr
      have hmono := crawlB_mono G P .down downSh fuel k (st.bdir .down)
      have hbdown : (st.setBdir .down r).bdir .down = r := rfl
      have hbup : (st.setBdir .down r).bdir .up = ⟨(st.bdir .up).seen, r.gout⟩ := rfl
      have hbgout : (st.setBdir .down r).gout = r.gout := rfl
      refine ⟨?_, ?_, ?_⟩
      · intro u hu
        rw [hbgout] at hu
        rcases crawlB_gout_char .down G P downSh seeds hf1 k hk (st.bdir .down) u (hr ▸ hu)
            with hold | hchar
        · exact hSound u hold
        · exact Or.inl ⟨rfl, hchar⟩
      · intro hdn
        rw [hbdown]
        cases downSh with
        | true => exact bdirInv_shallow_stepB .down G P hf1 dD k (st.bdir .down) (hDown hdn)
        | false => exact bdirInv_deep_stepB .down G P dD k (st.bdir .down) hcnt (hDown hdn)
      · intro hup
        rw [hbup]
        exact @bdirInv_gout_mono .up G P upSh dU (st.bdir .up) _ rfl hmono.2 (hUp hup)

/-- The upstream phase of the BioPortal seed loop preserves the loop
invariant. -/
theorem bioPhaseUp_inv (G : Graph) (P : List Node)
    (downstream upstream downSh upSh : Bool) (seeds : List Node) {fuel : Nat}
    (hf : fuelBoundB G ≤ fuel) (k : Node) (hk : k ∈ seeds) (dD dU : List Node)
    (st : BioSt) (h : bioLoopInv G P downstream upstream downSh upSh seeds dD dU st) :
    bioLoopInv G P downstream upstream downSh upSh seeds dD (dU ++ [k])
      (bioPhase G P .up upstream upSh fuel k st) := by
  obtain ⟨hSound, hDown, hUp⟩ := h
  have hboundLe : (poolB G).dedup.length + 2 ≤ fuel := hf
  have hf1 : 1 ≤ fuel := by omega
  have hcnt : unseenB G (st.bdir .up).seen + 1 < fuel := by
    have h1 := unseenB_le G (st.bdir .up).seen
    have h2 : (poolB G).dedup.length + 2 ≤ fuel := hf
    omega
  unfold bioPhase
  cases upstream with
  | false =>
      rw [if_neg (by simp)]
      exact ⟨hSound, hDown, fun hup => absurd hup (by simp)⟩
  | true =>
      rw [if_pos rfl]
      set r := crawlB G P .up upSh fuel k (st.bdir .up) with hr
      have hmono := crawlB_mono G P .up upSh fuel k (st.bdir .up)
      have hbup : (st.setBdir .up r).bdir .up = r := rfl
      have hbdown : (st.setBdir .up r).bdir .down = ⟨(st.bdir .down).seen, r.gout⟩ := rfl
      have hbgout : (st.setBdir .up r).gout = r.gout := rfl
      refine ⟨?_, ?_, ?_⟩
      · intro u hu
        rw [hbgout] at hu
        rcases crawlB_gout_char .up G P upSh seeds hf1 k hk (st.bdir .up) u (hr ▸ hu)
            with hold | hchar
        · exact hSound u hold
        · exact Or.inr ⟨rfl, hchar⟩
      · intro hdn
        rw [hbdown]
        exact @bdirInv_gout_mono .down G P downSh dD (st.bdir .down) _ rfl hmono.2 (hDown hdn)
      · intro hup
        rw [hbup]
        cases upSh with
        | true => exact bdirInv_shallow_stepB .up G P hf1 dU k (st.bdir .up) (hUp hup)
        | false => exact bdirInv_deep_stepB .up G P dU k (st.bdir .up) hcnt (hUp hup)

/-- The BioPortal seed loop preserves the invariant over all its seeds. -/
theorem bioCrawlSeeds_inv (G : Graph) (P : List Node)
    (downstream upstream downSh upSh : Bool) (seeds : List Node) {fuel : Nat}
    (hf : fuelBoundB G ≤ fuel) :
    ∀ rest dD dU st, rest ⊆ seeds →
      bioLoopInv G P downstream upstream downSh upSh seeds dD dU st →
      bioLoopInv G P downstream upstream downSh upSh seeds (dD ++ rest) (dU ++ rest)
        (bioCrawlSeeds G P downstream upstream downSh upSh fuel rest st) := by
  intro rest
  induction rest with
  | nil =>
      intro dD dU st _ h
      simpa using h
  | cons k rest ih =>
      intro dD dU st hsub h
      have hk : k ∈ seeds := hsub (List.mem_cons_self k rest)
      have hrest : rest ⊆ seeds := fun v hv => hsub (List.mem_cons_of_mem k hv)
      rw [bioCrawlSeeds]
      have hstep := bioPhaseUp_inv G P downstream upstream downSh upSh seeds hf k hk _ _ _
        (bioPhaseDown_inv G P downstream upstream downSh upSh seeds hf k hk dD dU st h)
      have hresult := ih (dD ++ [k]) (dU ++ [k]) _ hrest hstep
      simpa [List.append_assoc] using hresult

/-- In a final BioPortal state whose handled seeds cover all seeds, every
reachable node is fully processed. -/
theorem reachB_processed (d : Dir) (G : Graph) (P : List Node) (seeds : List Node)
    (st : BSt) (hdone : ∀ a ∈ seeds, a ∈ st.seen)
    (hseen : ∀ x ∈ st.seen, processedB d G P st x)
    {a : Node} (ha : reachB d G P seeds a) : processedB d G P st a := by
  obtain ⟨s0, hs0, hpath⟩ := ha
  induction hpath with
  | refl => exact hseen s0 (hdone s0 hs0)
  | tail hab hbc ih => exact hseen _ (ih.2 _ hbc)

/-- The characterization of the BioPortal crawler's output graph. -/
theorem bio_mem_gout (seeds : List Node) (G : Graph) (P : List Node)
    (downstream upstream upSh downSh : Bool) {fuel : Nat}
    (hf : fuelBoundB G ≤ fuel) (u : Triple) :
    u ∈ (bioCrawlSeeds G P downstream upstream downSh upSh fuel seeds ⟨[], [], []⟩).gout ↔
      (downstream = true ∧ charB .down G P downSh seeds u) ∨
      (upstream = true ∧ charB .up G P upSh seeds u) := by
  have hinit : bioLoopInv G P downstream upstream downSh upSh seeds [] [] ⟨[], [], []⟩ := by
    refine ⟨fun v hv => absurd hv (List.not_mem_nil v), ?_, ?_⟩
    · intro _
      cases downSh with
      | true => exact ⟨fun a ha => absurd ha (List.not_mem_nil a),
          fun x hx => absurd hx (List.not_mem_nil x)⟩
      | false => exact ⟨fun a ha => absurd ha (List.not_mem_nil a),
          fun x hx => absurd hx (List.not_mem_nil x)⟩
    · intro _
      cases upSh with
      | true => exact ⟨fun a ha => absurd ha (List.not_mem_nil a),
          fun x hx => absurd hx (List.not_mem_nil x)⟩
      | false => exact ⟨fun a ha => absurd ha (List.not_mem_nil a),
          fun x hx => absurd hx (List.not_mem_nil x)⟩
  have hfinal := bioCrawlSeeds_inv G P downstream upstream downSh upSh seeds hf seeds
    [] [] ⟨[], [], []⟩ (fun v hv => hv) hinit
  simp only [List.nil_append] at hfinal
  obtain ⟨hSound, hDown, hUp⟩ := hfinal
  constructor
  · intro hu
    exact hSound u hu
  · intro hu
    set stF := bioCrawlSeeds G P downstream upstream downSh upSh fuel seeds ⟨[], [], []⟩
      with hstF
    have hgd : (stF.bdir .down).gout = stF.gout := rfl
    have hgu : (stF.bdir .up).gout = stF.gout := rfl
    rcases hu with ⟨hdn, hchar⟩ | ⟨hup, hchar⟩
    · have hi := hDown hdn
      rw [← hgd]
      cases hsh : downSh with
      | true =>
          rw [hsh] at hi hchar
          obtain ⟨a, ha, pr, hpr, rfl⟩ := hchar
          exact hi.1 a ha pr hpr
      | false =>
          rw [hsh] at hi hchar
          obtain ⟨a, ha, pr, hpr, rfl⟩ := hchar
          exact (reachB_processed .down G P seeds _ hi.1 hi.2 ha).1 pr hpr
    · have hi := hUp hup
      rw [← hgu]
      cases hsh : upSh with
      | true =>
          rw [hsh] at hi hchar
          obtain ⟨a, ha, pr, hpr, rfl⟩ := hchar
          exact hi.1 a ha pr hpr
      | false =>
          rw [hsh] at hi hchar
          obtain ⟨a, ha, pr, hpr, rfl⟩ := hchar
          exact (reachB_processed .up G P seeds _ hi.1 hi.2 ha).1 pr hpr

/-! ## Local vs. remote crawler (claim C5) -/

/-- Whether a term is an IRI. -/
def Node.isIri : Node → Bool
  | .iri _ => true
  | .lit _ => false

theorem anchor_of_isIri {n : Node} (h : n.isIri = true) : n.anchor = n := by
  cases n with
  | iri s => rfl
  | lit s => simp [Node.isIri] at h

/-- Every node of `G` (in any triple position) is an IRI: the situation in
which the BioPortal binding coercion `URIRef(value)` is the identity. -/
def allIri (G : Graph) : Prop :=
  ∀ t ∈ G, t.s.isIri = true ∧ t.p.isIri = true ∧ t.o.isIri = true

theorem mem_queryB {d : Dir} {G : Graph} {P : List Node} {a : Node} {pr : Nat × Nat} :
    pr ∈ queryB d G P a ↔
      ∃ t ∈ queryDir d G P a, pr = (t.p.strOf, (d.qnext t).strOf) := by
  unfold queryB queryDir
  rw [List.mem_dedup, List.mem_map]
  constructor
  · rintro ⟨t, ht, rfl⟩
    exact ⟨t, ht, rfl⟩
  · rintro ⟨t, ht, rfl⟩
    exact ⟨t, ht, rfl⟩

theorem outB_eq_outT {d : Dir} {G : Graph} {P : List Node} {a : Node} {t : Triple}
    (hG : allIri G) (ht : t ∈ queryDir d G P a) :
    outB d a (t.p.strOf, (d.qnext t).strOf) = outT d a t := by
  obtain ⟨htG, _, _⟩ := mem_queryDir.mp ht
  obtain ⟨hs, hp, ho⟩ := hG t htG
  cases d with
  | down =>
      show (⟨a, .iri t.p.strOf, .iri t.o.strOf⟩ : Triple) = ⟨a, t.p, t.o⟩
      rw [show (Node.iri t.p.strOf) = t.p.anchor from rfl,
        show (Node.iri t.o.strOf) = t.o.anchor from rfl,
        anchor_of_isIri hp, anchor_of_isIri ho]
  | up =>
      show (⟨.iri t.s.strOf, .iri t.p.strOf, a⟩ : Triple) = ⟨t.s, t.p, a⟩
      rw [show (Node.iri t.p.strOf) = t.p.anchor from rfl,
        show (Node.iri t.s.strOf) = t.s.anchor from rfl,
        anchor_of_isIri hp, anchor_of_isIri hs]

theorem rows_equiv {d : Dir} {G : Graph} {P : List Node} {a : Node} (hG : allIri G)
    (u : Triple) :
    (∃ t ∈ queryDir d G P a, u = outT d a t) ↔ ∃ pr ∈ queryB d G P a, u = outB d a pr := by
  constructor
  · rintro ⟨t, ht, rfl⟩
    exact ⟨(t.p.strOf, (d.qnext t).strOf), mem_queryB.mpr ⟨t, ht, rfl⟩,
      (outB_eq_outT hG ht).symm⟩
  · rintro ⟨pr, hpr, rfl⟩
    obtain ⟨t, ht, rfl⟩ := mem_queryB.mp hpr
    exact ⟨t, ht, (outB_eq_outT hG ht)⟩

theorem stepR_iff_stepB {d : Dir} {G : Graph} {P : List Node} (hG : allIri G)
    (a b : Node) : stepR d G P a b ↔ stepB d G P a b := by
  unfold stepR stepB parentsB
  rw [List.mem_dedup, List.mem_map]
  constructor
  · rintro ⟨t, htG, hsel, hfil, rfl⟩
    have ht : t ∈ queryDir d G P a := mem_queryDir.mpr ⟨htG, hsel, hfil⟩
    refine ⟨(t.p.strOf, (d.qnext t).strOf), mem_queryB.mpr ⟨t, ht, rfl⟩, ?_⟩
    show Node.iri (d.qnext t).strOf = d.qnext t
    have hn : (d.qnext t).isIri = true := by
      obtain ⟨hs, hp, ho⟩ := hG t htG
      cases d with
      | down => exact ho
      | up => exact hs
    rw [show (Node.iri (d.qnext t).strOf) = (d.qnext t).anchor from rfl, anchor_of_isIri hn]
  · rintro ⟨pr, hpr, rfl⟩
    obtain ⟨t, ht, rfl⟩ := mem_queryB.mp hpr
    obtain ⟨htG, hsel, hfil⟩ := mem_queryDir.mp ht
    refine ⟨t, htG, hsel, hfil, ?_⟩
    have hn : (d.qnext t).isIri = true := by
      obtain ⟨hs, hp, ho⟩ := hG t htG
      cases d with
      | down => exact ho
      | up => exact hs
    show d.qnext t = Node.iri (t.p.strOf, (d.qnext t).strOf).2
    rw [show (Node.iri (t.p.strOf, (d.qnext t).strOf).2) = (d.qnext t).anchor from rfl,
      anchor_of_isIri hn]

theorem reflTransGen_congr {α : Type} {r r' : α → α → Prop}
    (h : ∀ a b, r a b ↔ r' a b) {a b : α} :
    Relation.ReflTransGen r a b ↔ Relation.ReflTransGen r' a b :=
  ⟨Relation.ReflTransGen.mono (fun x y hxy => (h x y).mp hxy),
    Relation.ReflTransGen.mono (fun x y hxy => (h x y).mpr hxy)⟩

theorem charDir_iff_charB {d : Dir} {G : Graph} {P : List Node} {sh : Bool}
    {seeds : List Node} (hG : allIri G) (u : Triple) :
    charDir d G P sh seeds u ↔ charB d G P sh seeds u := by
  unfold charDir charB
  cases sh with
  | true =>
      constructor <;> rintro ⟨a, ha, hrow⟩
      · exact ⟨a, ha, (rows_equiv hG u).mp hrow⟩
      · exact ⟨a, ha, (rows_equiv hG u).mpr hrow⟩
  | false =>
      have hreach : ∀ a, reachDir d G P seeds a ↔ reachB d G P seeds a := by
        intro a
        unfold reachDir reachB
        constructor <;> rintro ⟨s0, hs0, hpath⟩
        · exact ⟨s0, hs0, (reflTransGen_congr (stepR_iff_stepB hG)).mp hpath⟩
        · exact ⟨s0, hs0, (reflTransGen_congr (stepR_iff_stepB hG)).mpr hpath⟩
      constructor <;> rintro ⟨a, ha, hrow⟩
      · exact ⟨a, (hreach a).mp ha, (rows_equiv hG u).mp hrow⟩
      · exact ⟨a, (hreach a).mpr ha, (rows_equiv hG u).mpr hrow⟩

/-- C5 counterexample: a graph containing a literal object.  The local
crawler returns the original triple with its literal object; the BioPortal
crawler coerces the binding through `URIRef(...)` and returns an IRI object
instead, so the two result graphs differ although both crawlers saw exactly
the same served triples. -/
theorem C5_counterexample :
    (⟨.iri 0, .iri 1, .lit 2⟩ : Triple) ∈
      extract_property_paths [.iri 0] [⟨.iri 0, .iri 1, .lit 2⟩] [.iri 1]
        false true none true true ∧
    (⟨.iri 0, .iri 1, .lit 2⟩ : Triple) ∉
      extract_bioportal_property_paths [.iri 0] [⟨.iri 0, .iri 1, .lit 2⟩] [.iri 1]
        true false true true ∧
    (⟨.iri 0, .iri 1, .iri 2⟩ : Triple) ∈
      extract_bioportal_property_paths [.iri 0] [⟨.iri 0, .iri 1, .lit 2⟩] [.iri 1]
        true false true true := by
  decide

/-- C5 (amended): over a served triple collection in which every node is an
IRI — so that the remote crawler's `URIRef` coercion of binding values is
the identity — the local crawler (`extract_property_paths`, `shallow=None`)
and the remote crawler (`extract_bioportal_property_paths`) produce result
graphs with identical triple sets, for every seed list, predicate set,
direction flags and per-direction shallow flags. -/
theorem C5_local_remote_agree_on_iri_graphs (seeds : List Node) (G : Graph)
    (P : List Node) (upstream downstream upSh downSh : Bool) (hG : allIri G)
    (u : Triple) :
    u ∈ extract_property_paths seeds G P upstream downstream none upSh downSh ↔
      u ∈ extract_bioportal_property_paths seeds G P downstream upstream upSh downSh := by
  unfold extract_property_paths extract_bioportal_property_paths
  rw [extractAux_mem_gout seeds G P upstream downstream none upSh downSh true
      (le_refl (fuelBound G)) u,
    bio_mem_gout seeds G P downstream upstream upSh downSh (le_refl (fuelBoundB G)) u]
  have hu : charDir .up G P (effSh none upSh) seeds u ↔ charB .up G P upSh seeds u :=
    charDir_iff_charB hG u
  have hd : charDir .down G P (effSh none downSh) seeds u ↔ charB .down G P downSh seeds u :=
    charDir_iff_charB hG u
  rw [hu, hd]
  tauto

/-- Witness for the amended C5 on the all-IRI cycle graph. -/
theorem C5_witness :
    allIri cycleGraph ∧
    ((⟨.iri 0, .iri 10, .iri 1⟩ : Triple) ∈
        extract_property_paths [.iri 0] cycleGraph [.iri 10] true true none false false ↔
      (⟨.iri 0, .iri 10, .iri 1⟩ : Triple) ∈
        extract_bioportal_property_paths [.iri 0] cycleGraph [.iri 10] true true false false) :=
  ⟨by unfold allIri; decide,
    C5_local_remote_agree_on_iri_graphs [.iri 0] cycleGraph [.iri 10] true true false false
      (by unfold allIri; decide) ⟨.iri 0, .iri 10, .iri 1⟩⟩

/-! ## The import resolver (`retrieve_ontologies`)

`src/ontology_crawler.py` lines 73–147.  Parsing a document at an IRI in a
given serialization format either succeeds with that document's triples or
raises; the embedding models the reachable web of documents as a finite
table from (IRI, format) pairs to parse results.  Crucially, the source's
`try` block wraps not only the parse but also the *recursive*
`_import_ontologies(gin)` call, so an exception raised deep in the
recursion is caught by the importing document's format loop; the embedding
therefore threads an explicit "exception propagating" flag together with
the (mutated-in-place, hence retained) state. -/

/-- Serialization formats known to the loaders. -/
inductive Fmt where
  | xml
  | n3
  | nt
  | trix
  | turtle
  | rdfa
deriving DecidableEq, Repr

/-- `FORMATS` of `retrieve_ontologies` (`ontology_crawler.py:118`). -/
def FORMATS_ONT : List Fmt := [.xml, .n3, .nt, .trix, .rdfa]

/-- `FORMATS` of the per-context loader (`context_extract.py:77`) — note the
extra `turtle` entry. -/
def FORMATS_CTX : List Fmt := [.xml, .n3, .nt, .trix, .turtle, .rdfa]

/-- The document source: which (IRI, format) parse attempts succeed, and
with which triples (`Graph().parse(str(iri), format=form)`). -/
abbrev ParseTable := List ((Node × Fmt) × Graph)

/-- The guess-based last-ditch parse
(`Graph().parse(iri, format=guess_format(iri))`, `context_extract.py:94`):
which IRIs it would load, and with which triples. -/
abbrev GuessTable := List (Node × Graph)

/-- One parse attempt. -/
def parseDoc (parses : ParseTable) (o : Node) (f : Fmt) : Option Graph :=
  parses.lookup (o, f)

/-- The vocabulary constants of the import query. -/
def rdf_type : Node := .iri 900

def owl_Ontology : Node := .iri 901

def owl_imports : Node := .iri 902

/-- The import query of `_import_ontologies` (`ontology_crawler.py:101-107`):
`[] a owl:Ontology ; owl:imports ?ont` — all objects of `owl:imports`
triples whose subject is also typed `owl:Ontology`. -/
def importsOf (g : Graph) : List Node :=
  g.filterMap fun t =>
    if t.p = owl_imports ∧ ∃ t2 ∈ g, t2.s = t.s ∧ t2.p = rdf_type ∧ t2.o = owl_Ontology
    then some t.o else none

/-- `error=None` fails fast with an exception; `error='ignore'` skips the
unparseable document (`ontology_crawler.py:78-83`). -/
inductive ErrPolicy where
  | failFast
  | ignore
deriving DecidableEq, Repr

/-- Import-resolution state: the `seen` set, the accumulated `gout`, the
trace of IRIs that entered format resolution (in order), and the trace of
successful parse-and-merge events with their documents. -/
structure ISt where
  seen : List Node
  gout : Graph
  processTrace : List Node
  mergeTrace : List (Node × Graph)
deriving DecidableEq, Repr

/-- The empty import-resolution state. -/
def initISt : ISt := ⟨[], [], [], []⟩

/-- The format loop of `_import_ontologies` (`ontology_crawler.py:117-138`)
for one import IRI `o`.  On a successful parse the document is merged and
the recursion (`recurse`) runs *inside the `try`*: if it raises, the
exception is caught (`except ... pass`) with all state mutations retained,
`read_success` stays `True`, and the loop continues with the next format.
When the list is exhausted, the error policy applies only if no parse ever
succeeded; the returned flag says whether an exception is propagating. -/
def tryFormats (parses : ParseTable) (pol : ErrPolicy)
    (recurse : Graph → ISt → ISt × Bool) (o : Node) :
    List Fmt → Bool → ISt → ISt × Bool
  | [], readSuccess, st =>
      if readSuccess then (st, false)
      else
        match pol with
        | .failFast => (st, true)
        | .ignore => (st, false)
  | form :: rest, readSuccess, st =>
      match parseDoc parses o form with
      | none => tryFormats parses pol recurse o rest readSuccess st
      | some gin =>
          match recurse gin ⟨st.seen, gUnion st.gout gin, st.processTrace,
              st.mergeTrace ++ [(o, gin)]⟩ with
          | (st2, false) => (st2, false)
          | (st2, true) => tryFormats parses pol recurse o rest true st2

/-- The `for row in imports` loop of `_import_ontologies`
(`ontology_crawler.py:110-138`): skip seen IRIs, otherwise mark seen and run
the format loop; an uncaught exception aborts the remaining siblings. -/
def goImports (parses : ParseTable) (pol : ErrPolicy)
    (recurse : Graph → ISt → ISt × Bool) :
    List Node → ISt → ISt × Bool
  | [], st => (st, false)
  | o :: rest, st =>
      if o ∈ st.seen then goImports parses pol recurse rest st
      else
        match tryFormats parses pol recurse o FORMATS_ONT false
            ⟨addN o st.seen, st.gout, st.processTrace ++ [o], st.mergeTrace⟩ with
        | (st2, true) => (st2, true)
        | (st2, false) => goImports parses pol recurse rest st2

/-- `_import_ontologies(g)` (`ontology_crawler.py:90-138`), fuel-indexed. -/
def importOntologies (parses : ParseTable) (pol : ErrPolicy) :
    Nat → Graph → ISt → ISt × Bool
  | 0, _, st => (st, false)
  | fuel + 1, g, st =>
      goImports parses pol (fun g' st' => importOntologies parses pol fuel g' st')
        (importsOf g) st

/-- IRIs with at least one successful parse — only these can open a new
recursion level. -/
def domP (parses : ParseTable) : List Node := parses.map (fun pr => pr.1.1)

/-- Fuel bound for import resolution. -/
def fuelImports (parses : ParseTable) : Nat := (domP parses).dedup.length + 1

/-- The full `_import_ontologies(graph)` run started by
`retrieve_ontologies` (`ontology_crawler.py:140`). -/
def importRun (parses : ParseTable) (pol : ErrPolicy) (graph : Graph) : ISt × Bool :=
  importOntologies parses pol (fuelImports parses) graph initISt

/-- `retrieve_ontologies(graph, error=, inplace=)`
(`ontology_crawler.py:73-147`): an exception from a direct import of the
root graph propagates to the caller; otherwise the closure (merged with the
input when `inplace`) is returned. -/
def retrieve_ontologies (parses : ParseTable) (graph : Graph) (pol : ErrPolicy)
    (inplace : Bool) : Except Unit Graph :=
  match importRun parses pol graph with
  | (_, true) => .error ()
  | (st, false) => .ok (if inplace then gUnion graph st.gout else st.gout)

/-! ## The per-context document loader (`extract_from_contexts`) -/

/-- First-success resolution over a format list
(`context_extract.py:79-88`). -/
def tryFormatsSimple (parses : ParseTable) (o : Node) : List Fmt → Option Graph
  | [] => none
  | f :: rest =>
      match parseDoc parses o f with
      | some g => some g
      | none => tryFormatsSimple parses o rest

/-- Outcome of loading one context document. -/
inductive CtxLoad where
  | listed (g : Graph)
  | guessed (g : Graph)
  | failed
deriving DecidableEq, Repr

/-- The per-context document loading block of `extract_from_contexts`
(`context_extract.py:75-105`): try the fixed format list; if every listed
format fails, attempt one guess-based parse (`guess_format`); only when
that also fails does the error policy apply.  (On a successful guess the
source then executes a stray `break` that aborts the whole context loop —
see `context_extract.py:97`; the outcome is still a successful load of this
document.) -/
def loadContext (parses : ParseTable) (guesses : GuessTable) (o : Node) : CtxLoad :=
  match tryFormatsSimple parses o FORMATS_CTX with
  | some g => .listed g
  | none =>
      match guesses.lookup o with
      | some g => .guessed g
      | none => .failed

/-! ### Import resolution: invariants -/

theorem lookup_mem {α β : Type} [BEq α] [LawfulBEq α] {l : List (α × β)} {k : α} {v : β}
    (h : l.lookup k = some v) : (k, v) ∈ l := by
  induction l with
  | nil => simp [List.lookup] at h
  | cons p rest ih =>
      rw [List.lookup] at h
      split at h
      · next heq =>
          have hk : k = p.1 := by simpa using heq
          have hv : p.2 = v := by simpa using h
          rw [hk, ← hv]
          exact List.mem_cons_self _ _
      · exact List.mem_cons_of_mem p (ih h)

/-- State growth during import resolution. -/
def ILe (st st' : ISt) : Prop := st.seen ⊆ st'.seen ∧ st.gout ⊆ st'.gout

theorem ILe_refl (st : ISt) : ILe st st := ⟨fun _ h => h, fun _ h => h⟩

theorem ILe_trans {a b c : ISt} (h1 : ILe a b) (h2 : ILe b c) : ILe a c :=
  ⟨fun x hx => h2.1 (h1.1 hx), fun x hx => h2.2 (h1.2 hx)⟩

/-- Unfolding equations for the import format loop. -/
theorem tryFormats_nil (parses : ParseTable) (pol : ErrPolicy)
    (recurse : Graph → ISt → ISt × Bool) (o : Node) (rs : Bool) (st : ISt) :
    tryFormats parses pol recurse o [] rs st =
      if rs then (st, false)
      else match pol with
        | .failFast => (st, true)
        | .ignore => (st, false) := rfl

theorem tryFormats_cons (parses : ParseTable) (pol : ErrPolicy)
    (recurse : Graph → ISt → ISt × Bool) (o : Node) (form : Fmt) (rest : List Fmt)
    (rs : Bool) (st : ISt) :
    tryFormats parses pol recurse o (form :: rest) rs st =
      match parseDoc parses o form with
      | none => tryFormats parses pol recurse o rest rs st
      | some gin =>
          match recurse gin ⟨st.seen, gUnion st.gout gin, st.processTrace,
              st.mergeTrace ++ [(o, gin)]⟩ with
          | (st2, false) => (st2, false)
          | (st2, true) => tryFormats parses pol recurse o rest true st2 := rfl

theorem tryFormats_mono (parses : ParseTable) (pol : ErrPolicy)
    (recurse : Graph → ISt → ISt × Bool) (o : Node)
    (hrec : ∀ g' st', ILe st' (recurse g' st').1) :
    ∀ fmts rs st, ILe st (tryFormats parses pol recurse o fmts rs st).1 := by
  intro fmts
  induction fmts with
  | nil =>
      intro rs st
      rw [tryFormats_nil]
      split
      · exact ILe_refl st
      · split <;> exact ILe_refl st
  | cons form rest ih =>
      intro rs st
      rw [tryFormats_cons]
      split
      · exact ih rs st
      · next gin heq =>
          have h1 : ILe st ⟨st.seen, gUnion st.gout gin, st.processTrace,
              st.mergeTrace ++ [(o, gin)]⟩ :=
            ⟨fun x hx => hx, fun u hu => mem_gUnion.mpr (Or.inl hu)⟩
          split
          · next st2 hm =>
              refine ILe_trans h1 ?_
              have := hrec gin ⟨st.seen, gUnion st.gout gin, st.processTrace,
                st.mergeTrace ++ [(o, gin)]⟩
              rw [hm] at this
              exact this
          · next st2 hm =>
              refine ILe_trans (ILe_trans h1 ?_) (ih true st2)
              have := hrec gin ⟨st.seen, gUnion st.gout gin, st.processTrace,
                st.mergeTrace ++ [(o, gin)]⟩
              rw [hm] at this
              exact this

theorem goImports_mono (parses : ParseTable) (pol : ErrPolicy)
    (recurse : Graph → ISt → ISt × Bool)
    (hrec : ∀ g' st', ILe st' (recurse g' st').1) :
    ∀ os st, ILe st (goImports parses pol recurse os st).1 := by
  intro os
  induction os with
  | nil => intro st; exact ILe_refl st
  | cons o rest ih =>
      intro st
      rw [goImports]
      split
      · exact ih st
      · next hfresh =>
          have h1 : ILe st ⟨addN o st.seen, st.gout, st.processTrace ++ [o], st.mergeTrace⟩ :=
            ⟨fun x hx => mem_addN.mpr (Or.inr hx), fun u hu => hu⟩
          have h2 := tryFormats_mono parses pol recurse o hrec FORMATS_ONT false
            ⟨addN o st.seen, st.gout, st.processTrace ++ [o], st.mergeTrace⟩
          split
          · next st2 hm =>
              rw [hm] at h2
              exact ILe_trans h1 h2
          · next st2 hm =>
              rw [hm] at h2
              exact ILe_trans (ILe_trans h1 h2) (ih st2)

theorem importOntologies_mono (parses : ParseTable) (pol : ErrPolicy) :
    ∀ fuel g st, ILe st (importOntologies parses pol fuel g st).1 := by
  intro fuel
  induction fuel with
  | zero => intro g st; exact ILe_refl st
  | succ fuel ih =>
      intro g st
      rw [importOntologies]
      exact goImports_mono parses pol _ (fun g' st' => ih g' st') (importsOf g) st

/-- The bundled invariant of import resolution: the process trace is
duplicate-free and within the seen set, every merged document's triples are
in the accumulated closure, and every closure triple stems from some entry
of the parse table. -/
def IInv (parses : ParseTable) (st : ISt) : Prop :=
  st.processTrace.Nodup ∧ (∀ x ∈ st.processTrace, x ∈ st.seen) ∧
  (∀ e ∈ st.mergeTrace, ∀ t ∈ e.2, t ∈ st.gout) ∧
  (∀ t ∈ st.gout, ∃ pr ∈ parses, t ∈ pr.2)

theorem tryFormats_inv (parses : ParseTable) (pol : ErrPolicy)
    (recurse : Graph → ISt → ISt × Bool) (o : Node)
    (hrecM : ∀ g' st', ILe st' (recurse g' st').1)
    (hrec : ∀ g' st', IInv parses st' → IInv parses (recurse g' st').1) :
    ∀ fmts rs st, IInv parses st → IInv parses (tryFormats parses pol recurse o fmts rs st).1 := by
  intro fmts
  induction fmts with
  | nil =>
      intro rs st h
      rw [tryFormats_nil]
      split
      · exact h
      · split <;> exact h
  | cons form rest ih =>
      intro rs st h
      rw [tryFormats_cons]
      split
      · exact ih rs st h
      · next gin heq =>
          have heq' : parses.lookup (o, form) = some gin := heq
          have hpr : ((o, form), gin) ∈ parses := lookup_mem heq'
          have h1 : IInv parses ⟨st.seen, gUnion st.gout gin, st.processTrace,
              st.mergeTrace ++ [(o, gin)]⟩ := by
            obtain ⟨hnd, hsub, hmg, hsnd⟩ := h
            refine ⟨hnd, hsub, ?_, ?_⟩
            · intro e he t ht
              rcases List.mem_append.mp he with he' | he'
              · exact mem_gUnion.mpr (Or.inl (hmg e he' t ht))
              · have : e = (o, gin) := by simpa using he'
                subst this
                exact mem_gUnion.mpr (Or.inr ht)
            · intro t ht
              rcases mem_gUnion.mp ht with ht' | ht'
              · exact hsnd t ht'
              · exact ⟨((o, form), gin), hpr, ht'⟩
          split
          · next st2 hm =>
              have := hrec gin _ h1
              rw [hm] at this
              exact this
          · next st2 hm =>
              have := hrec gin _ h1
              rw [hm] at this
              exact ih true st2 this

theorem goImports_inv (parses : ParseTable) (pol : ErrPolicy)
    (recurse : Graph → ISt → ISt × Bool)
    (hrecM : ∀ g' st', ILe st' (recurse g' st').1)
    (hrec : ∀ g' st', IInv parses st' → IInv parses (recurse g' st').1) :
    ∀ os st, IInv parses st → IInv parses (goImports parses pol recurse os st).1 := by
  intro os
  induction os with
  | nil => intro st h; exact h
  | cons o rest ih =>
      intro st h
      rw [goImports]
      split
      · exact ih st h
      · next hfresh =>
          have h1 : IInv parses ⟨addN o st.seen, st.gout, st.processTrace ++ [o],
              st.mergeTrace⟩ := by
            obtain ⟨hnd, hsub, hmg, hsnd⟩ := h
            refine ⟨?_, ?_, hmg, hsnd⟩
            · rw [List.nodup_append]
              refine ⟨hnd, List.nodup_singleton o, ?_⟩
              intro x hx hx'
              have : x = o := by simpa using hx'
              subst this
              exact hfresh (hsub x hx)
            · intro x hx
              rcases List.mem_append.mp hx with hx' | hx'
              · exact mem_addN.mpr (Or.inr (hsub x hx'))
              · have : x = o := by simpa using hx'
                subst this
                exact mem_addN.mpr (Or.inl rfl)
          have h2 := tryFormats_inv parses pol recurse o hrecM hrec FORMATS_ONT false
            ⟨addN o st.seen, st.gout, st.processTrace ++ [o], st.mergeTrace⟩ h1
          split
          · next st2 hm =>
              rw [hm] at h2
              exact h2
          · next st2 hm =>
              rw [hm] at h2
              exact ih st2 h2

theorem importOntologies_inv (parses : ParseTable) (pol : ErrPolicy) :
    ∀ fuel g st, IInv parses st → IInv parses (importOntologies parses pol fuel g st).1 := by
  intro fuel
  induction fuel with
  | zero => intro g st h; exact h
  | succ fuel ih =>
      intro g st h
      rw [importOntologies]
      exact goImports_inv parses pol _
        (fun g' st' => importOntologies_mono parses pol fuel g' st')
        (fun g' st' h' => ih g' st' h') (importsOf g) st h

theorem initISt_inv (parses : ParseTable) : IInv parses initISt := by
  refine ⟨List.nodup_nil, ?_, ?_, ?_⟩ <;>
    intro x hx <;> exact absurd hx (List.not_mem_nil x)

/-! ### Import resolution: termination -/

/-- Distinct parseable IRIs not yet seen — the measure the import recursion
strictly decreases whenever it opens a new nesting level. -/
def unseenI (parses : ParseTable) (seen : List Node) : Nat :=
  ((domP parses).dedup.filter (fun x => decide (x ∉ seen))).length

theorem unseenI_le (parses : ParseTable) (seen : List Node) :
    unseenI parses seen ≤ (domP parses).dedup.length :=
  List.length_filter_le _ _

theorem unseenI_anti (parses : ParseTable) {s s' : List Node} (h : s ⊆ s') :
    unseenI parses s' ≤ unseenI parses s := by
  refine length_filter_le_of_imp _ _ _ ?_
  intro x hx
  simp only [decide_eq_true_eq] at *
  exact fun hmem => hx (h hmem)

theorem unseenI_lt (parses : ParseTable) {seen : List Node} {y : Node}
    (hy : y ∈ domP parses) (hns : y ∉ seen) :
    unseenI parses (addN y seen) < unseenI parses seen := by
  refine length_filter_lt_of_imp _ _ _ ?_ y (List.mem_dedup.mpr hy) ?_ ?_
  · intro x hx
    simp only [decide_eq_true_eq] at *
    exact fun hmem => hx (mem_addN.mpr (Or.inr hmem))
  · simpa using hns
  · simp [mem_addN]

theorem mem_domP_of_parse {parses : ParseTable} {o : Node} {f : Fmt} {gin : Graph}
    (h : parseDoc parses o f = some gin) : o ∈ domP parses := by
  have h' : parses.lookup (o, f) = some gin := h
  have hmem := lookup_mem h'
  exact List.mem_map.mpr ⟨((o, f), gin), hmem, rfl⟩

/-- The format loop does not see the extra fuel level once the entry IRI is
marked seen and the unseen count is within the inner budget. -/
theorem tryFormats_congr (parses : ParseTable) (pol : ErrPolicy) (fuel : Nat)
    (ihst : ∀ g st, unseenI parses st.seen < fuel →
      importOntologies parses pol (fuel + 1) g st = importOntologies parses pol fuel g st)
    (o : Node) (baseSeen : List Node) (ho : o ∉ baseSeen)
    (hcnt : unseenI parses baseSeen < fuel + 1) :
    ∀ fmts rs st', addN o baseSeen ⊆ st'.seen →
      tryFormats parses pol (fun g' s => importOntologies parses pol (fuel + 1) g' s) o fmts rs st'
        = tryFormats parses pol (fun g' s => importOntologies parses pol fuel g' s) o fmts rs st' := by
  intro fmts
  induction fmts with
  | nil => intro rs st' _; rw [tryFormats_nil, tryFormats_nil]
  | cons form rest ih =>
      intro rs st' hsub
      rw [tryFormats_cons, tryFormats_cons]
      cases hp : parseDoc parses o form with
      | none => exact ih rs st' hsub
      | some gin =>
          dsimp only
          have hdom : o ∈ domP parses := mem_domP_of_parse hp
          set starg : ISt := ⟨st'.seen, gUnion st'.gout gin, st'.processTrace,
            st'.mergeTrace ++ [(o, gin)]⟩ with hstarg
          have hcnt2 : unseenI parses starg.seen < fuel := by
            have hlt : unseenI parses (addN o baseSeen) < unseenI parses baseSeen :=
              unseenI_lt parses hdom ho
            have hle : unseenI parses starg.seen ≤ unseenI parses (addN o baseSeen) :=
              unseenI_anti parses hsub
            omega
          rw [ihst gin starg hcnt2]
          set r := importOntologies parses pol fuel gin starg with hr
          have hmono := importOntologies_mono parses pol fuel gin starg
          cases hres : r with
          | mk st2 flag =>
              cases flag with
              | false => rfl
              | true =>
                  refine ih true st2 ?_
                  have h1 : starg.seen ⊆ st2.seen := by
                    have hm2 := hmono
                    rw [← hr, hres] at hm2
                    exact hm2.1
                  exact fun x hx => h1 (hsub hx)

/-- The import loop does not see the extra fuel level when the unseen count
is within the current budget. -/
theorem goImports_congr (parses : ParseTable) (pol : ErrPolicy) (fuel : Nat)
    (ihst : ∀ g st, unseenI parses st.seen < fuel →
      importOntologies parses pol (fuel + 1) g st = importOntologies parses pol fuel g st) :
    ∀ os st, unseenI parses st.seen < fuel + 1 →
      goImports parses pol (fun g' s => importOntologies parses pol (fuel + 1) g' s) os st
        = goImports parses pol (fun g' s => importOntologies parses pol fuel g' s) os st := by
  intro os
  induction os with
  | nil => intro st _; rfl
  | cons o rest ih =>
      intro st hcnt
      rw [goImports, goImports]
      split
      · exact ih st hcnt
      · next hfresh =>
          set st1 : ISt := ⟨addN o st.seen, st.gout, st.processTrace ++ [o],
            st.mergeTrace⟩ with hst1
          have htf := tryFormats_congr parses pol fuel ihst o st.seen hfresh hcnt
            FORMATS_ONT false st1 (fun x hx => hx)
          rw [htf]
          have hmtf := tryFormats_mono parses pol
            (fun g' s => importOntologies parses pol fuel g' s) o
            (fun g' s => importOntologies_mono parses pol fuel g' s) FORMATS_ONT false st1
          cases hres : tryFormats parses pol
              (fun g' s => importOntologies parses pol fuel g' s) o FORMATS_ONT false st1 with
          | mk st2 flag =>
              cases flag with
              | true => rfl
              | false =>
                  refine ih st2 ?_
                  have h1 : st.seen ⊆ st2.seen := by
                    have := hmtf.1
                    rw [hres] at this
                    exact fun x hx => this (mem_addN.mpr (Or.inr hx))
                  have := unseenI_anti parses h1
                  omega

/-- One extra fuel level never changes the result once the fuel exceeds the
unseen parseable-IRI count. -/
theorem importOntologies_stable_succ (parses : ParseTable) (pol : ErrPolicy) :
    ∀ fuel g st, unseenI parses st.seen < fuel →
      importOntologies parses pol (fuel + 1) g st = importOntologies parses pol fuel g st := by
  intro fuel
  induction fuel with
  | zero => intro g st h; cases Nat.not_lt_zero _ h
  | succ fuel ih =>
      intro g st hcnt
      rw [importOntologies, importOntologies]
      exact goImports_congr parses pol fuel (fun g' st' h' => ih g' st' h')
        (importsOf g) st hcnt

/-- Fuel-stability of import resolution above the parse-table bound. -/
theorem importOntologies_stable (parses : ParseTable) (pol : ErrPolicy) (g : Graph)
    (st : ISt) {f₁ f₂ : Nat} (h₁ : fuelImports parses ≤ f₁) (h₂ : fuelImports parses ≤ f₂) :
    importOntologies parses pol f₁ g st = importOntologies parses pol f₂ g st := by
  have hchain : ∀ f, fuelImports parses ≤ f →
      importOntologies parses pol f g st
        = importOntologies parses pol (fuelImports parses) g st := by
    intro f hf
    induction f, hf using Nat.le_induction with
    | base => rfl
    | succ f hle ih =>
        rw [importOntologies_stable_succ parses pol f g st
          (Nat.lt_of_lt_of_le (Nat.lt_succ_of_le (unseenI_le parses st.seen)) hle), ih]
  rw [hchain f₁ h₁, hchain f₂ h₂]

/-! ## Claims about import resolution and format fallback -/

theorem tryFormats_allfail (parses : ParseTable) (pol : ErrPolicy)
    (recurse : Graph → ISt → ISt × Bool) (o : Node) :
    ∀ fmts rs st, (∀ f ∈ fmts, parseDoc parses o f = none) →
      tryFormats parses pol recurse o fmts rs st =
        (if rs then (st, false)
         else match pol with
           | .failFast => (st, true)
           | .ignore => (st, false)) := by
  intro fmts
  induction fmts with
  | nil => intro rs st _; rw [tryFormats_nil]
  | cons form rest ih =>
      intro rs st hfail
      rw [tryFormats_cons, hfail form (List.mem_cons_self form rest)]
      exact ih rs st (fun f hf => hfail f (List.mem_cons_of_mem form hf))

theorem tryFormats_ignore_flag (parses : ParseTable)
    (recurse : Graph → ISt → ISt × Bool) (o : Node)
    (hrec : ∀ g' s, (recurse g' s).2 = false) :
    ∀ fmts rs st, (tryFormats parses .ignore recurse o fmts rs st).2 = false := by
  intro fmts
  induction fmts with
  | nil =>
      intro rs st
      rw [tryFormats_nil]
      split <;> rfl
  | cons form rest ih =>
      intro rs st
      rw [tryFormats_cons]
      cases hp : parseDoc parses o form with
      | none => exact ih rs st
      | some gin =>
          dsimp only
          cases hres : recurse gin ⟨st.seen, gUnion st.gout gin, st.processTrace,
              st.mergeTrace ++ [(o, gin)]⟩ with
          | mk st2 flag =>
              cases flag with
              | false => rfl
              | true =>
                  have := hrec gin ⟨st.seen, gUnion st.gout gin, st.processTrace,
                    st.mergeTrace ++ [(o, gin)]⟩
                  rw [hres] at this
                  cases this

theorem goImports_ignore_flag (parses : ParseTable)
    (recurse : Graph → ISt → ISt × Bool)
    (hrec : ∀ g' s, (recurse g' s).2 = false) :
    ∀ os st, (goImports parses .ignore recurse os st).2 = false := by
  intro os
  induction os with
  | nil => intro st; rfl
  | cons o rest ih =>
      intro st
      rw [goImports]
      split
      · exact ih st
      · cases hres : tryFormats parses .ignore recurse o FORMATS_ONT false
            ⟨addN o st.seen, st.gout, st.processTrace ++ [o], st.mergeTrace⟩ with
        | mk st2 flag =>
            cases flag with
            | false => exact ih st2
            | true =>
                have := tryFormats_ignore_flag parses recurse o hrec FORMATS_ONT false
                  ⟨addN o st.seen, st.gout, st.processTrace ++ [o], st.mergeTrace⟩
                rw [hres] at this
                cases this

/-- Under `error='ignore'` the import resolution never raises. -/
theorem importOntologies_ignore_flag (parses : ParseTable) :
    ∀ fuel g st, (importOntologies parses .ignore fuel g st).2 = false := by
  intro fuel
  induction fuel with
  | zero => intro g st; rfl
  | succ fuel ih =>
      intro g st
      rw [importOntologies]
      exact goImports_ignore_flag parses _ (fun g' s => ih g' s) (importsOf g) st

theorem tryFormatsSimple_eq_none (parses : ParseTable) (o : Node) :
    ∀ fmts, tryFormatsSimple parses o fmts = none ↔ ∀ f ∈ fmts, parseDoc parses o f = none := by
  intro fmts
  induction fmts with
  | nil => simp [tryFormatsSimple]
  | cons form rest ih =>
      rw [tryFormatsSimple]
      cases hp : parseDoc parses o form with
      | none =>
          simp only [ih]
          constructor
          · intro h f hf
            rcases List.mem_cons.mp hf with rfl | hf'
            · exact hp
            · exact h f hf'
          · intro h f hf
            exact h f (List.mem_cons_of_mem form hf)
      | some g =>
          constructor
          · intro h; cases h
          · intro h
            have := h form (List.mem_cons_self form rest)
            rw [hp] at this
            cases this

/-- C6 counterexample: the claim says every referenced IRI is fetched and
merged at most once per invocation.  With `error=None` (FailFast), a root
graph importing O1, where O1 parses both as `n3` and as `nt` and O1's
document imports an unparseable O2: the nested failure raises inside O1's
`try` block, is caught by O1's format loop, and O1 is re-parsed and
re-merged under the next format — two merge events for O1 — while the
FailFast exception never reaches the caller. -/
theorem C6_counterexample :
    ((importRun [((.iri 10, .n3), [⟨.iri 2, rdf_type, owl_Ontology⟩, ⟨.iri 2, owl_imports, .iri 20⟩]),
        ((.iri 10, .nt), [⟨.iri 2, rdf_type, owl_Ontology⟩, ⟨.iri 2, owl_imports, .iri 20⟩])]
        .failFast
        [⟨.iri 1, rdf_type, owl_Ontology⟩, ⟨.iri 1, owl_imports, .iri 10⟩]).1.mergeTrace.map
          Prod.fst).count (.iri 10) = 2 ∧
    (importRun [((.iri 10, .n3), [⟨.iri 2, rdf_type, owl_Ontology⟩, ⟨.iri 2, owl_imports, .iri 20⟩]),
        ((.iri 10, .nt), [⟨.iri 2, rdf_type, owl_Ontology⟩, ⟨.iri 2, owl_imports, .iri 20⟩])]
        .failFast
        [⟨.iri 1, rdf_type, owl_Ontology⟩, ⟨.iri 1, owl_imports, .iri 10⟩]).2 = false := by
  decide

/-- C6 (amended): import resolution terminates for every parse table and
input graph — import cycles included — because the per-session seen set
only grows (the fuel-indexed run stabilizes at the parse-table bound);
every referenced IRI *enters format resolution* at most once per invocation
(the process trace is duplicate-free); every merged document's triples are
contained in the returned closure graph, which — being a triple set —
contains them once; and every closure triple stems from some successfully
parsed document.  (Merge *events* are however not always unique: see the
counterexample.) -/
theorem C6_amended_import_resolution (parses : ParseTable) (pol : ErrPolicy)
    (graph : Graph) {f₁ f₂ : Nat} (h₁ : fuelImports parses ≤ f₁)
    (h₂ : fuelImports parses ≤ f₂) :
    importOntologies parses pol f₁ graph initISt
      = importOntologies parses pol f₂ graph initISt ∧
    (importRun parses pol graph).1.processTrace.Nodup ∧
    (∀ e ∈ (importRun parses pol graph).1.mergeTrace, ∀ t ∈ e.2,
      t ∈ (importRun parses pol graph).1.gout) ∧
    (∀ t ∈ (importRun parses pol graph).1.gout, ∃ pr ∈ parses, t ∈ pr.2) := by
  have hinv := importOntologies_inv parses pol (fuelImports parses) graph initISt
    (initISt_inv parses)
  exact ⟨importOntologies_stable parses pol graph initISt h₁ h₂,
    hinv.1, hinv.2.2.1, hinv.2.2.2⟩

/-- Witness for the amended C6 on a cyclic import web (O1's document
re-imports O1). -/
theorem C6_amended_witness :
    fuelImports [((Node.iri 10, Fmt.xml),
        [⟨.iri 2, rdf_type, owl_Ontology⟩, ⟨.iri 2, owl_imports, .iri 10⟩])] ≤ 2 ∧
    fuelImports [((Node.iri 10, Fmt.xml),
        [⟨.iri 2, rdf_type, owl_Ontology⟩, ⟨.iri 2, owl_imports, .iri 10⟩])] ≤ 7 ∧
    (importOntologies [((Node.iri 10, Fmt.xml),
          [⟨.iri 2, rdf_type, owl_Ontology⟩, ⟨.iri 2, owl_imports, .iri 10⟩])] .failFast 2
        [⟨.iri 1, rdf_type, owl_Ontology⟩, ⟨.iri 1, owl_imports, .iri 10⟩] initISt
      = importOntologies [((Node.iri 10, Fmt.xml),
          [⟨.iri 2, rdf_type, owl_Ontology⟩, ⟨.iri 2, owl_imports, .iri 10⟩])] .failFast 7
        [⟨.iri 1, rdf_type, owl_Ontology⟩, ⟨.iri 1, owl_imports, .iri 10⟩] initISt ∧
      (importRun [((Node.iri 10, Fmt.xml),
          [⟨.iri 2, rdf_type, owl_Ontology⟩, ⟨.iri 2, owl_imports, .iri 10⟩])] .failFast
          [⟨.iri 1, rdf_type, owl_Ontology⟩, ⟨.iri 1, owl_imports, .iri 10⟩]).1.processTrace.Nodup ∧
      (∀ e ∈ (importRun [((Node.iri 10, Fmt.xml),
          [⟨.iri 2, rdf_type, owl_Ontology⟩, ⟨.iri 2, owl_imports, .iri 10⟩])] .failFast
          [⟨.iri 1, rdf_type, owl_Ontology⟩, ⟨.iri 1, owl_imports, .iri 10⟩]).1.mergeTrace,
        ∀ t ∈ e.2, t ∈ (importRun [((Node.iri 10, Fmt.xml),
          [⟨.iri 2, rdf_type, owl_Ontology⟩, ⟨.iri 2, owl_imports, .iri 10⟩])] .failFast
          [⟨.iri 1, rdf_type, owl_Ontology⟩, ⟨.iri 1, owl_imports, .iri 10⟩]).1.gout) ∧
      (∀ t ∈ (importRun [((Node.iri 10, Fmt.xml),
          [⟨.iri 2, rdf_type, owl_Ontology⟩, ⟨.iri 2, owl_imports, .iri 10⟩])] .failFast
          [⟨.iri 1, rdf_type, owl_Ontology⟩, ⟨.iri 1, owl_imports, .iri 10⟩]).1.gout,
        ∃ pr ∈ [((Node.iri 10, Fmt.xml),
          [⟨.iri 2, rdf_type, owl_Ontology⟩, ⟨.iri 2, owl_imports, .iri 10⟩])], t ∈ pr.2)) :=
  ⟨by decide, by decide,
    C6_amended_import_resolution _ .failFast _ (by decide) (by decide)⟩

/-- C7 (amended): `retrieve_ontologies` tries the fixed ordered list
`[xml, n3, nt, trix, rdfa]` until one succeeds and, when every listed
format fails for a referenced document, applies the error policy directly —
FailFast raises for a direct import of the root graph, Ignore contributes
zero triples (the closure only ever contains triples of successfully parsed
documents) and continues — with *no* format-guess fallback: the resolver
consults only the parse table.  The best-effort `guess_format` fallback
exists only in the per-context loader of `extract_from_contexts`, which
declares total failure (and only then applies the error policy) exactly
when every listed format *and* the guess fail. -/
theorem C7_format_fallback (parses : ParseTable) (guesses : GuessTable)
    (graph : Graph) (inplace : Bool) (o : Node) (rest : List Node)
    (himp : importsOf graph = o :: rest)
    (hfail : ∀ f ∈ FORMATS_ONT, parseDoc parses o f = none) :
    retrieve_ontologies parses graph .failFast inplace = .error () ∧
    (∃ g, retrieve_ontologies parses graph .ignore inplace = .ok g ∧
      ∀ t ∈ g, t ∈ graph ∨ ∃ pr ∈ parses, t ∈ pr.2) ∧
    (loadContext parses guesses o = .failed ↔
      (∀ f ∈ FORMATS_CTX, parseDoc parses o f = none) ∧ guesses.lookup o = none) := by
  refine ⟨?_, ?_, ?_⟩
  · -- FailFast: the first direct import exhausts the format list and raises
    unfold retrieve_ontologies importRun fuelImports
    rw [importOntologies, himp, goImports]
    rw [if_neg (show o ∉ initISt.seen from List.not_mem_nil o)]
    rw [tryFormats_allfail parses .failFast _ o FORMATS_ONT false _ hfail]
    rfl
  · -- Ignore: no exception, and the closure only holds parsed documents'
    -- triples, so the unparseable document contributes nothing
    cases hres : importRun parses .ignore graph with
    | mk st flag =>
        have hflag : (importRun parses .ignore graph).2 = false :=
          importOntologies_ignore_flag parses (fuelImports parses) graph initISt
        rw [hres] at hflag
        subst hflag
        have hok : retrieve_ontologies parses graph .ignore inplace
            = .ok (if inplace then gUnion graph st.gout else st.gout) := by
          unfold retrieve_ontologies
          rw [hres]
        refine ⟨if inplace then gUnion graph st.gout else st.gout, hok, ?_⟩
        have hsound : ∀ t ∈ st.gout, ∃ pr ∈ parses, t ∈ pr.2 := by
          have hinv := importOntologies_inv parses .ignore (fuelImports parses) graph
            initISt (initISt_inv parses)
          have h1 : (importRun parses .ignore graph).1 = st := by rw [hres]
          rw [show (importRun parses .ignore graph).1
            = (importOntologies parses .ignore (fuelImports parses) graph initISt).1 from rfl]
            at h1
          rw [← h1]
          exact hinv.2.2.2
        intro t ht
        cases hin : inplace with
        | true =>
            rw [hin] at ht
            simp only [if_pos rfl] at ht
            rcases mem_gUnion.mp ht with h | h
            · exact Or.inl h
            · exact Or.inr (hsound t h)
        | false =>
            rw [hin] at ht
            simp only [if_neg Bool.false_ne_true] at ht
            exact Or.inr (hsound t ht)
  · -- the context loader: total failure exactly when the list and the guess fail
    unfold loadContext
    cases hts : tryFormatsSimple parses o FORMATS_CTX with
    | some g =>
        constructor
        · intro h; cases h
        · rintro ⟨hall, _⟩
          rw [(tryFormatsSimple_eq_none parses o FORMATS_CTX).mpr hall] at hts
          cases hts
    | none =>
        generalize List.lookup o guesses = lk
        cases lk with
        | some g =>
            constructor
            · intro h; cases h
            · rintro ⟨_, hnone⟩
              cases hnone
        | none =>
            constructor
            · intro _
              exact ⟨(tryFormatsSimple_eq_none parses o FORMATS_CTX).mp hts, rfl⟩
            · intro _; rfl

/-- C7 counterexample: a document IRI none of whose listed formats parse,
but which the `guess_format`-based last-ditch parse would load (as the
per-context loader demonstrates).  `retrieve_ontologies` under FailFast
still declares total failure: the Import Resolver never falls back to a
format guess. -/
theorem C7_counterexample :
    loadContext ([] : ParseTable) [(Node.iri 10, [⟨.iri 3, .iri 4, .iri 5⟩])] (.iri 10)
      = .guessed [⟨.iri 3, .iri 4, .iri 5⟩] ∧
    retrieve_ontologies ([] : ParseTable)
      [⟨.iri 1, rdf_type, owl_Ontology⟩, ⟨.iri 1, owl_imports, .iri 10⟩] .failFast false
      = .error () :=
  ⟨rfl, rfl⟩

/-- Witness for the amended C7 on a concrete web where the sole import
parses under no listed format. -/
theorem C7_witness :
    importsOf [⟨.iri 1, rdf_type, owl_Ontology⟩, ⟨.iri 1, owl_imports, .iri 10⟩]
      = [Node.iri 10] ∧
    (∀ f ∈ FORMATS_ONT, parseDoc ([] : ParseTable) (.iri 10) f = none) ∧
    (retrieve_ontologies ([] : ParseTable)
        [⟨.iri 1, rdf_type, owl_Ontology⟩, ⟨.iri 1, owl_imports, .iri 10⟩] .failFast false
        = .error () ∧
      (∃ g, retrieve_ontologies ([] : ParseTable)
          [⟨.iri 1, rdf_type, owl_Ontology⟩, ⟨.iri 1, owl_imports, .iri 10⟩] .ignore false
          = .ok g ∧
        ∀ t ∈ g, t ∈ [⟨.iri 1, rdf_type, owl_Ontology⟩, ⟨.iri 1, owl_imports, .iri 10⟩] ∨
          ∃ pr ∈ ([] : ParseTable), t ∈ pr.2) ∧
      (loadContext ([] : ParseTable) ([] : GuessTable) (.iri 10) = .failed ↔
        (∀ f ∈ FORMATS_CTX, parseDoc ([] : ParseTable) (.iri 10) f = none) ∧
          ([] : GuessTable).lookup (.iri 10) = none)) :=
  ⟨by decide, by decide,
    C7_format_fallback ([] : ParseTable) ([] : GuessTable)
      [⟨.iri 1, rdf_type, owl_Ontology⟩, ⟨.iri 1, owl_imports, .iri 10⟩] false (.iri 10) []
      (by decide) (by decide)⟩

/-! ## Crawl entry points (`retrieve_crawl_paths`,
`bioportal_retrieve_crawl_paths`, `retrieve_crawl_paths_from_context`) -/

/-- The error taxonomy of the entry points: the mutual-exclusion
configuration error (`ontology_crawler.py:369`,
`bioportal_crawler.py:221`), a parse failure propagating out of
`retrieve_ontologies`, and the missing-seed-query error of the context
wrapper (`ontology_crawler.py:305`). -/
inductive CrawlErr where
  | configError
  | parseError
  | seedQueryMissing
deriving DecidableEq, Repr

/-- The `extract_params` dictionary handed through to the crawlers. -/
structure ExtractParams where
  upstream : Bool
  downstream : Bool
  up_shallow : Bool
  down_shallow : Bool
deriving DecidableEq, Repr

/-- `retrieve_crawl_paths(graph, properties, seed_query=, seeds=,
expand_ontologies=, import_error=, inplace=, extract_params=)`
(`ontology_crawler.py:322-408`).  A seed query is modelled by its
evaluation function; `_retrieve_seed_classes` builds a set, hence the
dedup. -/
def retrieve_crawl_paths (parses : ParseTable) (graph : Graph) (properties : List Node)
    (seed_query : Option (Graph → List Node)) (seeds : Option (List Node))
    (expand_ontologies : Bool) (import_error : ErrPolicy) (inplace : Bool)
    (ep : ExtractParams) : Except CrawlErr Graph :=
  if (seed_query.isNone && seeds.isNone) || (seed_query.isSome && seeds.isSome) then
    .error .configError
  else
    match (if expand_ontologies then retrieve_ontologies parses graph import_error false
           else .ok []) with
    | .error _ => .error .parseError
    | .ok ontology_graph =>
        .ok (if inplace then
              gUnion graph (gUnion []
                (extract_property_paths
                  (match seed_query, seeds with
                   | some q, none => (q graph).dedup
                   | _, some s => s
                   | none, none => [])
                  (gUnion graph ontology_graph) properties
                  ep.upstream ep.downstream none ep.up_shallow ep.down_shallow))
            else
              gUnion []
                (extract_property_paths
                  (match seed_query, seeds with
                   | some q, none => (q graph).dedup
                   | _, some s => s
                   | none, none => [])
                  (gUnion graph ontology_graph) properties
                  ep.upstream ep.downstream none ep.up_shallow ep.down_shallow))

/-- `bioportal_retrieve_crawl_paths(properties, bioportal, seeds=,
seed_query=, extract_params=)` (`bioportal_crawler.py:195-244`) over an
endpoint serving the triples `bioG`. -/
def bioportal_retrieve_crawl_paths (properties : List Node) (bioG : Graph)
    (seeds : Option (List Node)) (seed_query : Option (Graph → List Node))
    (ep : ExtractParams) : Except CrawlErr Graph :=
  if (seed_query.isNone && seeds.isNone) || (seed_query.isSome && seeds.isSome) then
    .error .configError
  else
    .ok (gUnion []
      (extract_bioportal_property_paths
        (match seed_query, seeds with
         | some q, none => (q bioG).dedup
         | _, some s => s
         | none, none => [])
        bioG properties ep.downstream ep.upstream ep.up_shallow ep.down_shallow))

/-- `retrieve_crawl_paths_from_context(seed_graph, context, properties,
seed_query=, ...)` (`ontology_crawler.py:284-319`): resolves seeds from
`seed_graph` via the mandatory seed query — raising before anything else
when it is absent — and crawls within `context`; note the signature offers
no parameter for passing an explicit seed set. -/
def retrieve_crawl_paths_from_context (parses : ParseTable)
    (seed_graph context : Graph) (properties : List Node)
    (seed_query : Option (Graph → List Node)) (expand_ontologies : Bool)
    (import_error : ErrPolicy) (inplace : Bool) (ep : ExtractParams) :
    Except CrawlErr Graph :=
  match seed_query with
  | some q =>
      retrieve_crawl_paths parses context properties none (some ((q seed_graph).dedup))
        expand_ontologies import_error inplace ep
  | none => .error .seedQueryMissing

/-- C8: the seed-resolving entry points fail with the configuration error,
before any crawling, exactly when both an explicit seed set and a seed
query are supplied or when neither is. -/
theorem C8_seed_validation (parses : ParseTable) (graph : Graph) (properties : List Node)
    (sq : Option (Graph → List Node)) (sd : Option (List Node))
    (expand_ontologies : Bool) (import_error : ErrPolicy) (inplace : Bool)
    (ep : ExtractParams) (bioG : Graph) (bq : Option (Graph → List Node))
    (bd : Option (List Node)) (bep : ExtractParams) :
    (retrieve_crawl_paths parses graph properties sq sd expand_ontologies import_error
        inplace ep = .error .configError ↔
      (sq = none ∧ sd = none) ∨ (sq ≠ none ∧ sd ≠ none)) ∧
    (bioportal_retrieve_crawl_paths properties bioG bd bq bep = .error .configError ↔
      (bq = none ∧ bd = none) ∨ (bq ≠ none ∧ bd ≠ none)) := by
  constructor
  · unfold retrieve_crawl_paths
    cases sq <;> cases sd
    · simp
    · constructor
      · intro h
        rw [if_neg (by simp)] at h
        split at h
        · exact absurd h (by simp)
        · exact absurd h (by simp)
      · rintro (⟨_, h2⟩ | ⟨h1, _⟩)
        · cases h2
        · exact absurd rfl h1
    · constructor
      · intro h
        rw [if_neg (by simp)] at h
        split at h
        · exact absurd h (by simp)
        · exact absurd h (by simp)
      · rintro (⟨h1, _⟩ | ⟨_, h2⟩)
        · cases h1
        · exact absurd rfl h2
    · simp
  · unfold bioportal_retrieve_crawl_paths
    cases bq <;> cases bd <;> simp

/-- C10: the per-context entry point accepts seeds only via a seed query —
for every call with `seed_query=None` it fails before any seed resolution
or crawling — and with a query it is exactly the wrapper that resolves the
seeds from the seed graph and crawls the context graph.  (The interface
offers no explicit-seed-set parameter at all.) -/
theorem C10_context_requires_seed_query (parses : ParseTable)
    (seed_graph context : Graph) (properties : List Node) (expand_ontologies : Bool)
    (import_error : ErrPolicy) (inplace : Bool) (ep : ExtractParams) :
    retrieve_crawl_paths_from_context parses seed_graph context properties none
        expand_ontologies import_error inplace ep = .error .seedQueryMissing ∧
    ∀ q, retrieve_crawl_paths_from_context parses seed_graph context properties (some q)
        expand_ontologies import_error inplace ep
      = retrieve_crawl_paths parses context properties none (some ((q seed_graph).dedup))
          expand_ontologies import_error inplace ep :=
  ⟨rfl, fun q => rfl⟩

/-! ## The environment-handler factory (`EnvironmentHandler.py`) -/

/-- Runtime type of the factory input: the two documented environment
types, or anything else. -/
inductive PyVal where
  | graphVal
  | sparqlWrapperVal
  | otherVal
deriving DecidableEq, Repr

/-- The handler classes of `EnvironmentHandler.py`. -/
inductive HandlerKind where
  | rdflibGraphHandler
  | sparqlWrapperHandler
deriving DecidableEq, Repr

/-- Python runtime errors the factory can raise. -/
inductive PyErr where
  | nameError
  | typeError
deriving DecidableEq, Repr

/-- The names bound at module level in `EnvironmentHandler.py` (imports and
class definitions); `VALID_TYPES` is not among them. -/
def environmentHandlerModuleGlobals : List String :=
  ["ABC", "abstractmethod", "uuid", "Graph", "SPARQLWrapper", "JSON",
   "EnvironmentHandlerFactory", "EnvironmentHandler",
   "RDFLibGraphEnvironmentHandler", "SPARQLWrapperEnvironmentHandler"]

/-- `EnvironmentHandlerFactory.createEnvironmentHander(environment)`
(`EnvironmentHandler.py:20-29`).  `TYPE_MAP` is a local binding, but the
membership test `type(environment) in VALID_TYPES.keys()` evaluates the
free name `VALID_TYPES`, which is bound nowhere in the module, so a
`NameError` is raised before any dispatch; the dispatch branch below is
dead code (written out as the `TYPE_MAP`-based dispatch it would
perform). -/
def createEnvironmentHander (environment : PyVal) : Except PyErr HandlerKind :=
  if "VALID_TYPES" ∈ environmentHandlerModuleGlobals then
    match environment with
    | .graphVal => .ok .rdflibGraphHandler
    | .sparqlWrapperVal => .ok .sparqlWrapperHandler
    | .otherVal => .error .typeError
  else .error .nameError

/-- C9: for every input value of any runtime type, the factory fails with
an unhandled `NameError` (the type check reads the undefined name
`VALID_TYPES`), so no environment handler can ever be constructed through
it. -/
theorem C9_factory_always_name_error (environment : PyVal) :
    createEnvironmentHander environment = .error .nameError := by
  cases environment <;> rfl

end OntologyCrawler
